import Mathlib

universe u

/-!
# Verification of the similarity-and-clustering engine of an AI data-cleaning tool

This file gives a shallow embedding, in Lean 4, of the document-similarity
pipeline implemented in `find_similar_documents.py`:

* the word chunker `chunk_text`,
* the pair scanner / mode filter `find_similar_pairs`,
* the union-find clustering `group_similar_documents`, and
* the report assembly performed in `main` (tier annotation, refusal checks).

Conventions of the embedding:

* Similarity scores (Python floats) are modelled as rationals `ℚ`; the
  embedding treats float arithmetic as exact arithmetic.
* Document identities (Python strings — file names) are a type `α` with a
  `LinearOrder` instance (Python compares names lexicographically for
  `sorted`/`tuple(sorted(...))`); concrete instances use `ℕ` or `String`.
* The external embedding model and `sklearn`'s `cosine_similarity` are
  abstracted into a similarity oracle `sim : α → α → ℚ` standing for
  `float(np.max(cosine_similarity(emb[a], emb[b])))`, which the Python code
  computes once per document pair.
* Python's unbounded `while` loop in `chunk_text` and the recursive
  union-find `find` are modelled with explicit fuel returning `Option`;
  `none` models divergence (the Python loop not terminating).  Fuel amounts
  are chosen in the definitions exactly where the Python code has an implicit
  termination argument, and sufficiency of the fuel is proved, not assumed.
* Python dicts are modelled as association lists with last-write-wins
  insertion (`dictInsert`), preserving insertion order like CPython dicts.
-/

/-! ## Chunker (`chunk_text`, lines 40–53)

Python:
```
def chunk_text(text, chunk_size=500, overlap=100):
    words = text.split()
    if len(words) <= chunk_size:
        return [text]
    chunks = []
    start = 0
    while start < len(words):
        end = start + chunk_size
        chunk = " ".join(words[start:end])
        chunks.append(chunk)
        start += chunk_size - overlap
    return chunks
```
-/

/-- `text.split()` in Python: split on whitespace, dropping empty fragments.
(Implemented over the character list so that the kernel can evaluate it.) -/
def pySplit (s : String) : List String :=
  ((s.data.splitOnP (fun c => c.isWhitespace)).filter (fun w => w ≠ [])).map
    (fun w => String.mk w)

/-- `s[:n]` in Python: the first `n` characters (code points) of `s`. -/
def pyTake (s : String) (n : ℕ) : String :=
  String.mk (s.data.take n)

/-- The `while start < len(words)` loop of `chunk_text`, at the level of word
lists.  `step` is `chunk_size - overlap` (Python integer subtraction is
truncated to `0` here; both a zero and a negative Python step make the loop
diverge, which the model reports as `none` when the fuel runs out).
`words[start:end]` is `(words.drop start).take chunkSize`. -/
def chunkLoop {α : Type u} (words : List α) (chunkSize step : ℕ) :
    ℕ → ℕ → Option (List (List α))
  | 0, start => if start < words.length then none else some []
  | fuel + 1, start =>
    if start < words.length then
      match chunkLoop words chunkSize step fuel (start + step) with
      | none => none
      | some rest => some (((words.drop start).take chunkSize) :: rest)
    else some []

/-- `chunk_text` at the level of word lists (the early-return branch yields the
whole word list, matching the single chunk `[text]`).  The fuel
`words.length + 1` is sufficient whenever `overlap < chunkSize`
(`chunkLoop_isSome`). -/
def chunkWords {α : Type u} (words : List α) (chunkSize overlap : ℕ) :
    Option (List (List α)) :=
  if words.length ≤ chunkSize then some [words]
  else chunkLoop words chunkSize (chunkSize - overlap) (words.length + 1) 0

/-- `chunk_text` itself: splits the text into words and joins each chunk with
single spaces; a text of at most `chunkSize` words is returned whole. -/
def chunk_text (text : String) (chunkSize overlap : ℕ) : Option (List String) :=
  let words := pySplit text
  if words.length ≤ chunkSize then some [text]
  else
    (chunkLoop words chunkSize (chunkSize - overlap) (words.length + 1) 0).map
      (List.map (fun c => String.intercalate " " c))

/-- Chunk size used by `main` (default parameter of `chunk_text`, line 40,
used unchanged by the call at line 238). -/
def mainChunkSize : ℕ := 500

/-- Overlap used by `main` (default parameter of `chunk_text`, line 40). -/
def mainOverlap : ℕ := 100

/-- The set of word positions covered by the `k`-th window of the chunking
loop over `n` words with window size `S` and stride `step`:
`[k*step, min (k*step + S) n)`. -/
def chunkSpan (n S step k : ℕ) : Finset ℕ :=
  Finset.Ico (k * step) (min (k * step + S) n)

/-- Number of word positions shared by consecutive windows `k` and `k+1`. -/
def consecOverlap (n S step k : ℕ) : ℕ :=
  ((chunkSpan n S step k) ∩ (chunkSpan n S step (k + 1))).card

/-! ### Chunker lemmas -/

theorem chunkLoop_isSome {α : Type u} (words : List α) (S step : ℕ) (hstep : 0 < step) :
    ∀ fuel start, words.length ≤ start + fuel →
      (chunkLoop words S step fuel start).isSome := by
  intro fuel
  induction fuel with
  | zero =>
    intro start h
    unfold chunkLoop
    rw [if_neg (by omega)]
    rfl
  | succ fuel ih =>
    intro start h
    unfold chunkLoop
    by_cases hlt : start < words.length
    · rw [if_pos hlt]
      have := ih (start + step) (by omega)
      match hr : chunkLoop words S step fuel (start + step) with
      | none => rw [hr] at this; simp at this
      | some rest => simp
    · rw [if_neg hlt]; rfl

theorem chunkLoop_spec {α : Type u} (words : List α) (S step : ℕ) :
    ∀ fuel start cs, chunkLoop words S step fuel start = some cs →
      (∀ k (h : k < cs.length),
        cs.get ⟨k, h⟩ = (words.drop (start + k * step)).take S ∧
        start + k * step < words.length) ∧
      words.length ≤ start + cs.length * step := by
  intro fuel
  induction fuel with
  | zero =>
    intro start cs h
    unfold chunkLoop at h
    split at h
    · exact absurd h (by simp)
    · cases h
      refine ⟨fun k hk => absurd hk (by simp), ?_⟩
      simp only [List.length_nil, Nat.zero_mul]
      omega
  | succ fuel ih =>
    intro start cs h
    unfold chunkLoop at h
    split at h
    case isTrue hlt =>
      match hr : chunkLoop words S step fuel (start + step) with
      | none => rw [hr] at h; exact absurd h (by simp)
      | some rest =>
        rw [hr] at h
        cases h
        obtain ⟨ihget, ihlen⟩ := ih (start + step) rest hr
        constructor
        · intro k hk
          match k with
          | 0 =>
            refine ⟨?_, by simpa using hlt⟩
            simp
          | k + 1 =>
            have hk' : k < rest.length := by simpa using hk
            obtain ⟨h1, h2⟩ := ihget k hk'
            have harith : start + step + k * step = start + (k + 1) * step := by ring
            refine ⟨?_, by omega⟩
            simpa [harith] using h1
        · simp only [List.length_cons]
          have : start + step + rest.length * step = start + (rest.length + 1) * step := by
            ring
          omega
    case isFalse hlt =>
      cases h
      refine ⟨fun k hk => absurd hk (by simp), ?_⟩
      simp only [List.length_nil, Nat.zero_mul]
      omega

/-- Claim C3 (amended): for `O < S` the chunker always succeeds; every chunk
`k` is the word window starting at `k * (S - O)`; the windows jointly cover
every word position; consecutive windows share exactly `O` word positions
whenever the earlier window is full (i.e. does not already reach the end of
the text); and a text of at most `S` words stays in one piece. -/
theorem chunkWords_coverage_overlap {α : Type u} (words : List α) (S O : ℕ) (hO : O < S) :
    ∃ cs, chunkWords words S O = some cs ∧
      cs ≠ [] ∧
      (∀ k (h : k < cs.length), cs.get ⟨k, h⟩ = (words.drop (k * (S - O))).take S) ∧
      (∀ i, i < words.length → ∃ k, k < cs.length ∧ i ∈ chunkSpan words.length S (S - O) k) ∧
      (∀ k, k + 1 < cs.length → k * (S - O) + S ≤ words.length →
        consecOverlap words.length S (S - O) k = O) ∧
      (words.length ≤ S → cs = [words]) := by
  have hstep : 0 < S - O := by omega
  set step := S - O with hstepdef
  have hoverlap : ∀ k, k * step + S ≤ words.length →
      consecOverlap words.length S step k = O := by
    intro k hk
    unfold consecOverlap chunkSpan
    rw [Finset.Ico_inter_Ico]
    have h1 : min (k * step + S) words.length = k * step + S := by omega
    have h2 : k * step ≤ (k + 1) * step := by
      have : k * step + step = (k + 1) * step := by ring
      omega
    have h3 : (k + 1) * step = k * step + step := by ring
    rw [h1]
    have h4 : max (k * step) ((k + 1) * step) = (k + 1) * step := by omega
    have h5 : min (k * step + S) (min ((k + 1) * step + S) words.length)
        = k * step + S := by omega
    rw [h4, h5, Nat.card_Ico]
    omega
  by_cases hle : words.length ≤ S
  · refine ⟨[words], ?_, by simp, ?_, ?_, ?_, fun _ => rfl⟩
    · unfold chunkWords; rw [if_pos hle]
    · intro k hk
      match k with
      | 0 => simpa using (List.take_of_length_le hle).symm
    · intro i hi
      refine ⟨0, by simp, ?_⟩
      unfold chunkSpan
      simp only [Nat.zero_mul, Finset.mem_Ico]
      omega
    · intro k hk
      simp at hk
  · have hlen : S < words.length := by omega
    have hsome := chunkLoop_isSome words S step hstep (words.length + 1) 0 (by omega)
    match hr : chunkLoop words S step (words.length + 1) 0 with
    | none => rw [hr] at hsome; simp at hsome
    | some cs =>
      obtain ⟨hget, hbound⟩ := chunkLoop_spec words S step (words.length + 1) 0 cs hr
      simp only [Nat.zero_add] at hget hbound
      have hne : cs ≠ [] := by
        intro hnil
        rw [hnil] at hbound
        simp only [List.length_nil, Nat.zero_mul, Nat.add_zero, Nat.le_zero] at hbound
        omega
      refine ⟨cs, ?_, hne, fun k hk => (hget k hk).1, ?_, fun k _ => hoverlap k, ?_⟩
      · unfold chunkWords
        rw [if_neg (by omega), hr]
      · intro i hi
        have hdm := Nat.div_add_mod i step
        have hmod : i % step < step := Nat.mod_lt i hstep
        have hcomm : step * (i / step) = (i / step) * step := Nat.mul_comm _ _
        refine ⟨i / step, ?_, ?_⟩
        · refine lt_of_mul_lt_mul_right ?_ (Nat.zero_le step)
          omega
        · unfold chunkSpan
          simp only [Finset.mem_Ico]
          omega
      · intro h
        exact absurd h (by omega)

/-- Claim C3 (amended, full statement): for every word list, chunk size `S` and
overlap `O < S`, chunking succeeds, the chunks are the word windows with
stride `S - O`, the windows cover all word positions, consecutive windows
overlap by exactly `O` words whenever the earlier window is still full
(not every non-final window is full, which is the amendment), a word list of
length at most `S` yields the single chunk `[words]`, and a text of at most
`S` words yields the single chunk equal to the full original text. -/
theorem claim_C3_chunk_coverage {α : Type u} (words : List α) (S O : ℕ) (hO : O < S) :
    (∃ cs, chunkWords words S O = some cs ∧
      cs ≠ [] ∧
      (∀ k (h : k < cs.length), cs.get ⟨k, h⟩ = (words.drop (k * (S - O))).take S) ∧
      (∀ i, i < words.length → ∃ k, k < cs.length ∧ i ∈ chunkSpan words.length S (S - O) k) ∧
      (∀ k, k + 1 < cs.length → k * (S - O) + S ≤ words.length →
        consecOverlap words.length S (S - O) k = O) ∧
      (words.length ≤ S → cs = [words])) ∧
    ∀ text : String, (pySplit text).length ≤ S → chunk_text text S O = some [text] := by
  refine ⟨chunkWords_coverage_overlap words S O hO, ?_⟩
  intro text h
  simp only [chunk_text]
  rw [if_pos h]

/-- Counterexample to claim C3 as stated: over 10 words with chunk size 8 and
overlap 6 (stride 2), the chunker emits 5 chunks; the chunks at indices 2 and
3 are consecutive, index 3 is not the final chunk (the final index is 4), yet
they share only 4 word positions, not `O = 6` (the chunk at index 2 is
truncated by the end of the text).  Words are `0, …, 9`, so each word equals
its position and the shared positions are visible in the chunk contents. -/
theorem claim_C3_counterexample :
    chunkWords (List.range 10) 8 6 =
      some [[0,1,2,3,4,5,6,7],[2,3,4,5,6,7,8,9],[4,5,6,7,8,9],[6,7,8,9],[8,9]] ∧
    (([4,5,6,7,8,9] : List ℕ).inter [6,7,8,9]).length = 4 ∧
    consecOverlap 10 8 (8 - 6) 2 = 4 ∧
    3 < 5 - 1 ∧
    (4 : ℕ) ≠ 6 := by
  refine ⟨by decide, by decide, by decide, by decide, by decide⟩

/-- Witness for `claim_C3_chunk_coverage` at a concrete input. -/
theorem claim_C3_witness :
    (∃ cs, chunkWords [10,11,12,13,14] 3 1 = some cs ∧
      cs ≠ [] ∧
      (∀ k (h : k < cs.length),
        cs.get ⟨k, h⟩ = (([10,11,12,13,14] : List ℕ).drop (k * (3 - 1))).take 3) ∧
      (∀ i, i < ([10,11,12,13,14] : List ℕ).length →
        ∃ k, k < cs.length ∧
          i ∈ chunkSpan ([10,11,12,13,14] : List ℕ).length 3 (3 - 1) k) ∧
      (∀ k, k + 1 < cs.length →
        k * (3 - 1) + 3 ≤ ([10,11,12,13,14] : List ℕ).length →
        consecOverlap ([10,11,12,13,14] : List ℕ).length 3 (3 - 1) k = 1) ∧
      (([10,11,12,13,14] : List ℕ).length ≤ 3 → cs = [[10,11,12,13,14]])) ∧
    ∀ text : String, (pySplit text).length ≤ 3 → chunk_text text 3 1 = some [text] :=
  claim_C3_chunk_coverage [10,11,12,13,14] 3 1 (by decide)

/-- Claim C6: the pipeline's only chunker invocation uses the default
configuration `chunk_size = 500`, `overlap = 100`, which satisfies
`overlap < chunk_size`; and under the precondition `overlap < chunk_size` the
chunker (and with it the pure post-embedding pipeline) cannot fail: it always
returns a result.  (A configuration with `overlap ≥ chunk_size` would make
the Python `while` loop diverge — the model returns `none` — but no run
configuration of the program can reach the chunker with such parameters.) -/
theorem claim_C6_config :
    mainOverlap < mainChunkSize ∧
    (∀ S O : ℕ, O < S → ∀ text, (chunk_text text S O).isSome) ∧
    (∀ text, (chunk_text text mainChunkSize mainOverlap).isSome) := by
  have hmain : mainOverlap < mainChunkSize := by decide
  have htot : ∀ S O : ℕ, O < S → ∀ text, (chunk_text text S O).isSome := by
    intro S O hO text
    simp only [chunk_text]
    by_cases hle : (pySplit text).length ≤ S
    · rw [if_pos hle]; rfl
    · rw [if_neg hle]
      have hstep : 0 < S - O := by omega
      have := chunkLoop_isSome (pySplit text) S (S - O) hstep
        ((pySplit text).length + 1) 0 (by omega)
      match hr : chunkLoop (pySplit text) S (S - O) ((pySplit text).length + 1) 0 with
      | none => rw [hr] at this; simp at this
      | some cs => simp
  exact ⟨hmain, htot, fun text => htot mainChunkSize mainOverlap (by decide) text⟩

/-- Witness for `claim_C6_config` at a concrete input. -/
theorem claim_C6_witness :
    (1 : ℕ) < 2 ∧ (chunk_text "a b c" 2 1).isSome ∧
    chunk_text "a b c" 2 1 = some ["a b", "b c", "c"] :=
  ⟨by decide, claim_C6_config.2.1 2 1 (by decide) "a b c", by decide⟩

/-! ## Pair scanner and mode filter (`find_similar_pairs`, lines 55–90)

Python:
```
def find_similar_pairs(doc_embeddings, documents, threshold=0.6, mode="all", selected_types=None):
    similar_pairs = []
    doc_names = list(documents.keys())
    for i in range(len(doc_names)):
        for j in range(i+1, len(doc_names)):
            name_i, name_j = doc_names[i], doc_names[j]
            type_i = documents[name_i]["type"]
            type_j = documents[name_j]["type"]
            if mode == "same_type" and type_i != type_j:
                continue
            if mode == "select" and selected_types:
                if type_i not in selected_types or type_j not in selected_types:
                    continue
                if type_i == type_j:
                    continue
            sim_matrix = cosine_similarity(doc_embeddings[name_i], doc_embeddings[name_j])
            max_sim = float(np.max(sim_matrix))
            if max_sim >= threshold:
                similar_pairs.append({...})
    return similar_pairs
```

The `documents` dict is modelled by its key list `names` together with the
attribute maps `docType` and `docText`; the chunk embeddings and
`np.max(cosine_similarity(...))` are abstracted into the oracle `sim`. -/

/-- A retained pair record (the dict appended at lines 80–88). -/
structure SimPair (α : Type _) where
  doc1 : α
  doc2 : α
  type1 : String
  type2 : String
  similarity : ℚ
  preview1 : String
  preview2 : String
deriving DecidableEq

/-- Truthiness of the Python value `selected_types` (`None` and `[]` are
falsy). -/
def selTruthy : Option (List String) → Bool
  | none => false
  | some ts => !ts.isEmpty

/-- The body of the inner loop for one candidate `(a, b)`: `none` means the
pair was skipped (mode filter or below threshold), `some p` that `p` was
appended to `similar_pairs`. -/
def considerPair {α : Type u} (sim : α → α → ℚ) (docType docText : α → String)
    (threshold : ℚ) (mode : String) (selectedTypes : Option (List String))
    (a b : α) : Option (SimPair α) :=
  let t1 := docType a
  let t2 := docType b
  if mode = "same_type" ∧ t1 ≠ t2 then none
  else if mode = "select" ∧ selTruthy selectedTypes = true ∧
      (t1 ∉ selectedTypes.getD [] ∨ t2 ∉ selectedTypes.getD [] ∨ t1 = t2) then none
  else if threshold ≤ sim a b then
    some ⟨a, b, t1, t2, sim a b, pyTake (docText a) 100, pyTake (docText b) 100⟩
  else none

/-- `find_similar_pairs`: the `i < j` double loop over the document-name list,
collecting the retained pairs in traversal order. -/
def find_similar_pairs {α : Type u} (sim : α → α → ℚ) (docType docText : α → String)
    (threshold : ℚ) (mode : String) (selectedTypes : Option (List String)) :
    List α → List (SimPair α)
  | [] => []
  | a :: rest =>
    rest.filterMap (considerPair sim docType docText threshold mode selectedTypes a) ++
      find_similar_pairs sim docType docText threshold mode selectedTypes rest

/-! ### Scanner lemmas -/

theorem pair_sublist_cons {α : Type u} {a b x : α} {rest : List α} :
    [a, b].Sublist (x :: rest) ↔ [a, b].Sublist rest ∨ (a = x ∧ [b].Sublist rest) := by
  constructor
  · intro h
    cases h with
    | cons _ h' => exact Or.inl h'
    | cons₂ _ h' => exact Or.inr ⟨rfl, h'⟩
  · rintro (h | ⟨rfl, h⟩)
    · exact h.cons _
    · exact h.cons₂ _

/-- Membership in the scanner output: `p` is retained iff it arises from two
documents `a`, `b` with `a` listed before `b` (`[a, b]` a sublist of the key
list) whose `considerPair` outcome is `some p`. -/
theorem mem_find_similar_pairs {α : Type u} (sim : α → α → ℚ)
    (docType docText : α → String) (threshold : ℚ) (mode : String)
    (selectedTypes : Option (List String)) :
    ∀ (names : List α) (p : SimPair α),
      p ∈ find_similar_pairs sim docType docText threshold mode selectedTypes names ↔
      ∃ a b, [a, b].Sublist names ∧
        considerPair sim docType docText threshold mode selectedTypes a b = some p := by
  intro names
  induction names with
  | nil =>
    intro p
    simp only [find_similar_pairs, List.not_mem_nil, false_iff]
    rintro ⟨a, b, hab, -⟩
    exact absurd (hab.length_le) (by simp)
  | cons x rest ih =>
    intro p
    simp only [find_similar_pairs, List.mem_append, List.mem_filterMap, ih]
    constructor
    · rintro (⟨b, hb, hcons⟩ | ⟨a, b, hab, hcons⟩)
      · exact ⟨x, b, pair_sublist_cons.2 (Or.inr ⟨rfl, List.singleton_sublist.2 hb⟩), hcons⟩
      · exact ⟨a, b, pair_sublist_cons.2 (Or.inl hab), hcons⟩
    · rintro ⟨a, b, hab, hcons⟩
      rcases pair_sublist_cons.1 hab with h | ⟨rfl, h⟩
      · exact Or.inr ⟨a, b, h, hcons⟩
      · exact Or.inl ⟨b, List.singleton_sublist.1 h, hcons⟩

theorem considerPair_fields {α : Type u} {sim : α → α → ℚ} {docType docText : α → String}
    {threshold : ℚ} {mode : String} {sel : Option (List String)} {a b : α} {p : SimPair α}
    (h : considerPair sim docType docText threshold mode sel a b = some p) :
    p.doc1 = a ∧ p.doc2 = b ∧ p.type1 = docType a ∧ p.type2 = docType b ∧
      p.similarity = sim a b ∧ threshold ≤ sim a b := by
  simp only [considerPair] at h
  split at h
  · exact absurd h (by simp)
  split at h
  · exact absurd h (by simp)
  split at h
  case isTrue hth =>
    cases h
    exact ⟨rfl, rfl, rfl, rfl, rfl, hth⟩
  · exact absurd h (by simp)

theorem considerPair_same_type {α : Type u} {sim : α → α → ℚ}
    {docType docText : α → String} {threshold : ℚ} {sel : Option (List String)}
    {a b : α} {p : SimPair α}
    (h : considerPair sim docType docText threshold "same_type" sel a b = some p) :
    docType a = docType b := by
  simp only [considerPair] at h
  split at h
  · exact absurd h (by simp)
  case isFalse hc =>
    push_neg at hc
    exact hc trivial

theorem considerPair_select {α : Type u} {sim : α → α → ℚ}
    {docType docText : α → String} {threshold : ℚ} {ts : List String}
    {a b : α} {p : SimPair α} (hts : ts ≠ [])
    (h : considerPair sim docType docText threshold "select" (some ts) a b = some p) :
    docType a ∈ ts ∧ docType b ∈ ts ∧ docType a ≠ docType b := by
  simp only [considerPair] at h
  split at h
  · exact absurd h (by simp)
  split at h
  · exact absurd h (by simp)
  case isFalse hc1 hc2 =>
    push_neg at hc2
    have htruthy : selTruthy (some ts) = true := by
      simp [selTruthy, hts]
    obtain ⟨hmem1, hmem2, hne⟩ := hc2 trivial htruthy
    exact ⟨by simpa using hmem1, by simpa using hmem2, hne⟩

/-- Claim C4: under `same_type` every retained pair has equal types; under
`select` with a non-empty type list every retained pair has both types in the
list and distinct from each other; in particular under
`select(["docx", "pdf"])` every retained pair has exactly one `docx` and one
`pdf` member. -/
theorem claim_C4_mode_filtering {α : Type u} (sim : α → α → ℚ)
    (docType docText : α → String) (threshold : ℚ) (sel : Option (List String))
    (names : List α) :
    (∀ p ∈ find_similar_pairs sim docType docText threshold "same_type" sel names,
      p.type1 = p.type2) ∧
    (∀ ts : List String, ts ≠ [] →
      ∀ p ∈ find_similar_pairs sim docType docText threshold "select" (some ts) names,
        p.type1 ∈ ts ∧ p.type2 ∈ ts ∧ p.type1 ≠ p.type2) ∧
    (∀ p ∈ find_similar_pairs sim docType docText threshold "select"
        (some ["docx", "pdf"]) names,
      (p.type1 = "docx" ∧ p.type2 = "pdf") ∨ (p.type1 = "pdf" ∧ p.type2 = "docx")) := by
  have hsel : ∀ ts : List String, ts ≠ [] →
      ∀ p ∈ find_similar_pairs sim docType docText threshold "select" (some ts) names,
        p.type1 ∈ ts ∧ p.type2 ∈ ts ∧ p.type1 ≠ p.type2 := by
    intro ts hts p hp
    obtain ⟨a, b, -, hc⟩ := (mem_find_similar_pairs sim docType docText threshold
      "select" (some ts) names p).1 hp
    obtain ⟨-, -, ht1, ht2, -, -⟩ := considerPair_fields hc
    obtain ⟨h1, h2, h3⟩ := considerPair_select hts hc
    rw [ht1, ht2]
    exact ⟨h1, h2, h3⟩
  refine ⟨?_, hsel, ?_⟩
  · intro p hp
    obtain ⟨a, b, -, hc⟩ := (mem_find_similar_pairs sim docType docText threshold
      "same_type" sel names p).1 hp
    obtain ⟨-, -, ht1, ht2, -, -⟩ := considerPair_fields hc
    rw [ht1, ht2]
    exact considerPair_same_type hc
  · intro p hp
    obtain ⟨h1, h2, h3⟩ := hsel ["docx", "pdf"] (by simp) p hp
    simp only [List.mem_cons, List.mem_singleton, List.not_mem_nil, or_false] at h1 h2
    rcases h1 with h1 | h1 <;> rcases h2 with h2 | h2 <;>
      simp_all

section

attribute [local semireducible] Rat.add Rat.mul Rat.sub Rat.inv Rat.ofScientific

/-- Witness for `claim_C4_mode_filtering` at a concrete input: three documents
(`docx`, `pdf`, `docx`), constant similarity 1, threshold 0.6. -/
theorem claim_C4_witness :
    find_similar_pairs (fun _ _ => (1 : ℚ))
        (fun n => if n = 0 then "docx" else if n = 1 then "pdf" else "docx")
        (fun _ => "") (6/10) "same_type" none [0, 1, 2] =
      [⟨0, 2, "docx", "docx", 1, "", ""⟩] ∧
    (∀ p ∈ find_similar_pairs (fun _ _ => (1 : ℚ))
        (fun n => if n = 0 then "docx" else if n = 1 then "pdf" else "docx")
        (fun _ => "") (6/10) "same_type" none [0, 1, 2],
      p.type1 = p.type2) :=
  ⟨by decide,
    (claim_C4_mode_filtering (fun _ _ => (1 : ℚ))
      (fun n => if n = 0 then "docx" else if n = 1 then "pdf" else "docx")
      (fun _ => "") (6/10) none [0, 1, 2]).1⟩

end

/-- Claim C10: when mode is `"select"` but `selected_types` is `None` or the
empty list (both falsy in Python), no type filtering is applied: the output
coincides with mode `"all"`. -/
theorem claim_C10_select_falsy {α : Type u} (sim : α → α → ℚ)
    (docType docText : α → String) (threshold : ℚ) (names : List α) :
    find_similar_pairs sim docType docText threshold "select" none names =
      find_similar_pairs sim docType docText threshold "all" none names ∧
    find_similar_pairs sim docType docText threshold "select" (some []) names =
      find_similar_pairs sim docType docText threshold "all" none names := by
  have key : ∀ sel : Option (List String), selTruthy sel = false →
      considerPair sim docType docText threshold "select" sel =
        considerPair sim docType docText threshold "all" none := by
    intro sel hsel
    funext a b
    simp [considerPair, hsel]
  have congrList : ∀ (m₁ : String) (s₁ : Option (List String)) (m₂ : String)
      (s₂ : Option (List String)),
      considerPair sim docType docText threshold m₁ s₁ =
        considerPair sim docType docText threshold m₂ s₂ →
      ∀ ns : List α, find_similar_pairs sim docType docText threshold m₁ s₁ ns =
        find_similar_pairs sim docType docText threshold m₂ s₂ ns := by
    intro m₁ s₁ m₂ s₂ h ns
    induction ns with
    | nil => rfl
    | cons x rest ih =>
      simp only [find_similar_pairs, h, ih]
  exact ⟨congrList _ _ _ _ (key none rfl) names,
    congrList _ _ _ _ (key (some []) rfl) names⟩

/-- Counterexample to claim C8 as stated: two documents both typed
`"unknown"`, compared under mode `same_type` with threshold 0 and constant
similarity 1, DO form a retained pair (the claim asserts such a pair is never
a candidate).  The code only skips a `same_type` pair when the two types
differ, and `"unknown" == "unknown"`. -/
theorem claim_C8_counterexample :
    find_similar_pairs (fun _ _ : ℕ => (1 : ℚ)) (fun _ => "unknown") (fun _ => "")
        0 "same_type" none [0, 1] =
      [⟨0, 1, "unknown", "unknown", 1, "", ""⟩] := by decide

/-- Claim C8 (amended): documents typed `"unknown"` participate in `all`-mode
comparisons like any others, and under `same_type` a pair of two `"unknown"`
documents is ALSO a candidate (the two declared types are equal, so the
same-type filter keeps it) — the reference behaviour does not exclude the
`"unknown"` bucket from same-type grouping. -/
theorem claim_C8_unknown_participation {α : Type u} (sim : α → α → ℚ)
    (docType docText : α → String) (threshold : ℚ) (sel : Option (List String))
    (names : List α) (a b : α) (hab : [a, b].Sublist names)
    (hsim : threshold ≤ sim a b) :
    (⟨a, b, docType a, docType b, sim a b,
        pyTake (docText a) 100, pyTake (docText b) 100⟩ : SimPair α) ∈
      find_similar_pairs sim docType docText threshold "all" sel names ∧
    (docType a = "unknown" → docType b = "unknown" →
      (⟨a, b, docType a, docType b, sim a b,
          pyTake (docText a) 100, pyTake (docText b) 100⟩ : SimPair α) ∈
        find_similar_pairs sim docType docText threshold "same_type" sel names) := by
  constructor
  · refine (mem_find_similar_pairs sim docType docText threshold "all" sel names _).2
      ⟨a, b, hab, ?_⟩
    simp [considerPair, hsim]
  · intro h1 h2
    refine (mem_find_similar_pairs sim docType docText threshold "same_type" sel
      names _).2 ⟨a, b, hab, ?_⟩
    simp [considerPair, hsim, h1, h2]

/-- Witness for `claim_C8_unknown_participation` at a concrete input. -/
theorem claim_C8_witness :
    (⟨5, 7, "unknown", "unknown", 1, pyTake "" 100, pyTake "" 100⟩ : SimPair ℕ) ∈
      find_similar_pairs (fun _ _ : ℕ => (1 : ℚ)) (fun _ => "unknown") (fun _ => "")
        0 "all" none [5, 7] ∧
    ((fun _ : ℕ => "unknown") 5 = "unknown" → (fun _ : ℕ => "unknown") 7 = "unknown" →
      (⟨5, 7, "unknown", "unknown", 1, pyTake "" 100, pyTake "" 100⟩ : SimPair ℕ) ∈
        find_similar_pairs (fun _ _ : ℕ => (1 : ℚ)) (fun _ => "unknown") (fun _ => "")
          0 "same_type" none [5, 7]) :=
  claim_C8_unknown_participation (fun _ _ => (1 : ℚ)) (fun _ => "unknown")
    (fun _ => "") 0 none [5, 7] 5 7 (by decide) (by decide)

/-! ## Union-find clustering (`group_similar_documents`, lines 92–157)

Python:
```
def group_similar_documents(similar_pairs):
    parent = {}
    def find(x):
        if parent[x] != x:
            parent[x] = find(parent[x])
        return parent[x]
    def union(a, b):
        root_a, root_b = find(a), find(b)
        if root_a != root_b:
            parent[root_b] = root_a
    all_docs = set()
    for pair in similar_pairs:
        all_docs.add(pair['doc1']); all_docs.add(pair['doc2'])
    for doc in all_docs:
        parent[doc] = doc
    for pair in similar_pairs:
        union(pair['doc1'], pair['doc2'])
    clusters = {}
    for doc in all_docs:
        root = find(doc)
        if root not in clusters: clusters[root] = []
        clusters[root].append(doc)
    pair_lookup = {}
    for pair in similar_pairs:
        key = tuple(sorted([pair['doc1'], pair['doc2']]))
        pair_lookup[key] = pair['similarity']
    result = []
    for root, members in clusters.items():
        if len(members) < 2: continue
        sims = []
        for i in range(len(members)):
            for j in range(i+1, len(members)):
                key = tuple(sorted([members[i], members[j]]))
                if key in pair_lookup: sims.append(pair_lookup[key])
        avg_sim = sum(sims) / len(sims) if sims else 0
        max_sim = max(sims) if sims else 0
        result.append({'members': sorted(members), 'size': len(members),
                       'avg_similarity': avg_sim, 'max_similarity': max_sim})
    result.sort(key=lambda x: (x['size'], x['avg_similarity']), reverse=True)
    return result
```

The mutable `parent` dict is modelled as a total function `α → α` initialised
to the identity (Python initialises `parent[doc] = doc` for every document
occurring in a pair; documents outside that set are never looked up).  The
recursive `find` with path compression carries explicit fuel and returns the
root together with the updated parent map; `none` models non-termination,
and the fuel `|all_docs| + 1` chosen by `group_similar_documents` is proved
sufficient.  Python's `set` iteration is modelled by the first-appearance
order of documents in the pair list; all theorems about the result depend
only on set membership. -/

/-- `find` with path compression (fuel-indexed). -/
def ufFind {α : Type u} [DecidableEq α] : ℕ → (α → α) → α → Option (α × (α → α))
  | 0, _, _ => none
  | fuel + 1, p, x =>
    if p x = x then some (x, p)
    else
      match ufFind fuel p (p x) with
      | none => none
      | some (r, p₁) => some (r, fun y => if y = x then r else p₁ y)

/-- `union`: find both roots, graft `root_b` under `root_a` when distinct. -/
def ufUnion {α : Type u} [DecidableEq α] (fuel : ℕ) (p : α → α) (a b : α) :
    Option (α → α) :=
  match ufFind fuel p a with
  | none => none
  | some (ra, p₁) =>
    match ufFind fuel p₁ b with
    | none => none
    | some (rb, p₂) =>
      if ra ≠ rb then some (fun y => if y = rb then ra else p₂ y) else some p₂

/-- The `for pair in similar_pairs: union(...)` loop. -/
def ufUnionAll {α : Type u} [DecidableEq α] (fuel : ℕ) :
    List (SimPair α) → (α → α) → Option (α → α)
  | [], p => some p
  | pr :: rest, p =>
    match ufUnion fuel p pr.doc1 pr.doc2 with
    | none => none
    | some p' => ufUnionAll fuel rest p'

/-- Add to a duplicate-free list (models `set.add`, keeping insertion order). -/
def insertNew {α : Type u} [DecidableEq α] (l : List α) (x : α) : List α :=
  if x ∈ l then l else l ++ [x]

/-- The `all_docs` set: every document occurring in some pair. -/
def allDocsOf {α : Type u} [DecidableEq α] (pairs : List (SimPair α)) : List α :=
  pairs.foldl (fun acc pr => insertNew (insertNew acc pr.doc1) pr.doc2) []

/-- `clusters[root].append(doc)` on an insertion-ordered association list. -/
def addToCluster {α : Type u} [DecidableEq α] :
    List (α × List α) → α → α → List (α × List α)
  | [], r, d => [(r, [d])]
  | (r', ms) :: rest, r, d =>
    if r' = r then (r', ms ++ [d]) :: rest else (r', ms) :: addToCluster rest r d

/-- The `for doc in all_docs: clusters[find(doc)].append(doc)` loop, threading
the parent map through the `find` calls. -/
def buildClusters {α : Type u} [DecidableEq α] (fuel : ℕ) :
    List α → (α → α) → List (α × List α) → Option (List (α × List α) × (α → α))
  | [], p, acc => some (acc, p)
  | d :: rest, p, acc =>
    match ufFind fuel p d with
    | none => none
    | some (r, p') => buildClusters fuel rest p' (addToCluster acc r d)

/-- `dict[k] = v` on an insertion-ordered association list (last write wins). -/
def dictInsert {κ ν : Type _} [DecidableEq κ] :
    List (κ × ν) → κ → ν → List (κ × ν)
  | [], k, v => [(k, v)]
  | (k', v') :: rest, k, v =>
    if k' = k then (k, v) :: rest else (k', v') :: dictInsert rest k v

/-- `dict.get(k)` on an association list. -/
def dictFind {κ ν : Type _} [DecidableEq κ] (k : κ) : List (κ × ν) → Option ν
  | [] => none
  | (k', v) :: rest => if k' = k then some v else dictFind k rest

/-- `tuple(sorted([a, b]))`. -/
def pairKey {α : Type u} [LinearOrder α] (a b : α) : α × α :=
  if a ≤ b then (a, b) else (b, a)

/-- The `pair_lookup` dict mapping each sorted endpoint pair to its score. -/
def pairLookupOf {α : Type u} [LinearOrder α] (pairs : List (SimPair α)) :
    List ((α × α) × ℚ) :=
  pairs.foldl (fun acc pr => dictInsert acc (pairKey pr.doc1 pr.doc2) pr.similarity) []

/-- The `i < j` member-pair loop collecting scores of keys present in
`pair_lookup`. -/
def simsOf {α : Type u} [LinearOrder α] (lookup : List ((α × α) × ℚ)) :
    List α → List ℚ
  | [] => []
  | m :: rest =>
    rest.filterMap (fun n => dictFind (pairKey m n) lookup) ++ simsOf lookup rest

/-- The sorted keys enumerated by the `i < j` member-pair loop (proof device
mirroring `simsOf`). -/
def memberKeys {α : Type u} [LinearOrder α] : List α → List (α × α)
  | [] => []
  | m :: rest => rest.map (fun n => pairKey m n) ++ memberKeys rest

/-- `max(sims) if sims else 0`. -/
def pyMax (l : List ℚ) : ℚ :=
  match l with
  | [] => 0
  | x :: xs => xs.foldl max x

/-- `sum(sims) / len(sims) if sims else 0`. -/
def pyAvg (l : List ℚ) : ℚ :=
  if l.isEmpty then 0 else l.sum / l.length

/-- One reported cluster (the dict appended at lines 148–153). -/
structure Cluster (α : Type _) where
  members : List α
  size : ℕ
  avg_similarity : ℚ
  max_similarity : ℚ
deriving DecidableEq

/-- The cluster record built for one `(root, members)` entry of size ≥ 2. -/
def clusterStats {α : Type u} [LinearOrder α] (lookup : List ((α × α) × ℚ))
    (e : α × List α) : Option (Cluster α) :=
  if e.2.length < 2 then none
  else
    let sims := simsOf lookup e.2
    some ⟨e.2.insertionSort (· ≤ ·), e.2.length, pyAvg sims, pyMax sims⟩

/-- `reverse=True` sort order on `(size, avg_similarity)`: `c` may precede `d`
iff `c`'s key is lexicographically at least `d`'s. -/
def clusterLE {α : Type u} (c d : Cluster α) : Prop :=
  d.size < c.size ∨ (d.size = c.size ∧ d.avg_similarity ≤ c.avg_similarity)

instance {α : Type u} : DecidableRel (@clusterLE α) := fun c d => by
  unfold clusterLE
  exact inferInstance

/-- `group_similar_documents`.  (Python's `list.sort` is stable; so is
insertion sort with `clusterLE`, which holds between equal keys.) -/
def group_similar_documents {α : Type u} [LinearOrder α] (pairs : List (SimPair α)) :
    Option (List (Cluster α)) :=
  let allDocs := allDocsOf pairs
  let fuel := allDocs.length + 1
  match ufUnionAll fuel pairs (fun x => x) with
  | none => none
  | some p =>
    match buildClusters fuel allDocs p [] with
    | none => none
    | some (entries, _) =>
      let lookup := pairLookupOf pairs
      some ((entries.filterMap (clusterStats lookup)).insertionSort clusterLE)

/-! ### Union-find invariants -/

/-- `r` is the root of `x` under parent map `p`. -/
def UFRoot {α : Type u} (p : α → α) (x r : α) : Prop :=
  p r = r ∧ ∃ n, p^[n] x = r

/-- `x` and `y` have the same root. -/
def ufSame {α : Type u} (p : α → α) (x y : α) : Prop :=
  ∃ r, UFRoot p x r ∧ UFRoot p y r

/-- Every parent chain reaches a fixpoint. -/
def AllSettle {α : Type u} (p : α → α) : Prop :=
  ∀ x, ∃ n, p (p^[n] x) = p^[n] x

/-- All non-fixpoints of `p` lie in `D`. -/
def SuppIn {α : Type u} (p : α → α) (D : Finset α) : Prop :=
  ∀ x, p x ≠ x → x ∈ D

/-- `p` maps `D` into `D`. -/
def MapsInto {α : Type u} (p : α → α) (D : Finset α) : Prop :=
  ∀ x ∈ D, p x ∈ D

/-- The union-find state invariant over document universe `D`. -/
def UFInv {α : Type u} (p : α → α) (D : Finset α) : Prop :=
  AllSettle p ∧ SuppIn p D ∧ MapsInto p D

theorem iterate_fix {α : Type u} {p : α → α} {r : α} (h : p r = r) :
    ∀ k, p^[k] r = r := by
  intro k
  induction k with
  | zero => rfl
  | succ k ih => rw [Function.iterate_succ_apply', ih, h]

theorem fix_after {α : Type u} {p : α → α} {x : α} {i j : ℕ}
    (h : p (p^[i] x) = p^[i] x) (hij : i ≤ j) : p^[j] x = p^[i] x := by
  obtain ⟨k, rfl⟩ := Nat.exists_eq_add_of_le hij
  rw [Nat.add_comm, Function.iterate_add_apply]
  exact iterate_fix h k

theorem ufRoot_unique {α : Type u} {p : α → α} {x r r' : α}
    (h : UFRoot p x r) (h' : UFRoot p x r') : r = r' := by
  obtain ⟨hr, n, hn⟩ := h
  obtain ⟨hr', n', hn'⟩ := h'
  have hfix : p (p^[n] x) = p^[n] x := by rw [hn]; exact hr
  have hfix' : p (p^[n'] x) = p^[n'] x := by rw [hn']; exact hr'
  rcases Nat.le_total n n' with hle | hle
  · have := fix_after hfix hle
    rw [hn', hn] at this
    exact this.symm
  · have := fix_after hfix' hle
    rw [hn', hn] at this
    exact this

theorem allSettle_root {α : Type u} {p : α → α} (h : AllSettle p) (x : α) :
    ∃ r, UFRoot p x r := by
  obtain ⟨n, hn⟩ := h x
  exact ⟨p^[n] x, hn, n, rfl⟩

theorem ufSame_refl {α : Type u} {p : α → α} (h : AllSettle p) (x : α) :
    ufSame p x x := by
  obtain ⟨r, hr⟩ := allSettle_root h x
  exact ⟨r, hr, hr⟩

theorem ufSame_symm {α : Type u} {p : α → α} {x y : α}
    (h : ufSame p x y) : ufSame p y x := by
  obtain ⟨r, h1, h2⟩ := h
  exact ⟨r, h2, h1⟩

theorem ufSame_trans {α : Type u} {p : α → α} {x y z : α}
    (h : ufSame p x y) (h' : ufSame p y z) : ufSame p x z := by
  obtain ⟨r, h1, h2⟩ := h
  obtain ⟨r', h3, h4⟩ := h'
  rw [ufRoot_unique h2 h3] at h1
  exact ⟨r', h1, h4⟩

theorem uf_noCycle {α : Type u} {p : α → α} (hA : AllSettle p) {x : α} {n : ℕ}
    (hn : p^[n] x = x) (hpos : 0 < n) : p x = x := by
  obtain ⟨k, hk⟩ := hA x
  have hper : ∀ m, p^[m * n] x = x := by
    intro m
    induction m with
    | zero => rw [Nat.zero_mul]; rfl
    | succ m ih =>
      rw [Nat.succ_mul, Function.iterate_add_apply, hn, ih]
  have hk1 : k ≤ (k + 1) * n := by
    calc k ≤ (k + 1) * 1 := by omega
    _ ≤ (k + 1) * n := Nat.mul_le_mul_left (k + 1) hpos
  have hfix := fix_after hk hk1
  rw [hper (k + 1)] at hfix
  conv_lhs => rw [hfix]
  conv_rhs => rw [hfix]
  exact hk

theorem settle_bound {α : Type u} {p : α → α} {D : Finset α}
    (hA : AllSettle p) (hS : SuppIn p D) (x : α) :
    p (p^[D.card] x) = p^[D.card] x := by
  by_contra hne
  have hnonfix : ∀ i, i ≤ D.card → p (p^[i] x) ≠ p^[i] x := by
    intro i hi hfix
    apply hne
    rw [fix_after hfix hi]
    exact hfix
  have hmem : ∀ i ∈ Finset.range (D.card + 1), p^[i] x ∈ D := by
    intro i hi
    exact hS _ (hnonfix i (Nat.lt_succ_iff.mp (Finset.mem_range.mp hi)))
  have hinj : Set.InjOn (fun i => p^[i] x) (Finset.range (D.card + 1)) := by
    intro i hi j hj hij
    simp only [Finset.coe_range, Set.mem_Iio] at hi hj
    by_contra hne2
    rcases Nat.lt_or_ge i j with hlt | hge
    · have hsplit : p^[j - i] (p^[i] x) = p^[i] x := by
        rw [← Function.iterate_add_apply]
        have : j - i + i = j := by omega
        rw [this]
        exact hij.symm
      have := uf_noCycle hA hsplit (by omega)
      exact hnonfix i (by omega) this
    · have hlt : j < i := by omega
      have hsplit : p^[i - j] (p^[j] x) = p^[j] x := by
        rw [← Function.iterate_add_apply]
        have : i - j + j = i := by omega
        rw [this]
        exact hij
      have := uf_noCycle hA hsplit (by omega)
      exact hnonfix j (by omega) this
  have hcard := Finset.card_le_card_of_injOn (fun i => p^[i] x) hmem hinj
  rw [Finset.card_range] at hcard
  omega

theorem update_settle {α : Type u} [DecidableEq α] {p : α → α} {x r : α}
    (hA : AllSettle p) (hr : p r = r) :
    AllSettle (fun y => if y = x then r else p y) := by
  set q := fun y => if y = x then r else p y with hq
  have main : ∀ k y, p (p^[k] y) = p^[k] y → ∃ m, q (q^[m] y) = q^[m] y := by
    intro k
    induction k with
    | zero =>
      intro y hy
      simp only [Function.iterate_zero_apply] at hy
      by_cases hyx : y = x
      · by_cases hrx : r = x
        · refine ⟨0, ?_⟩
          have h1 : q y = r := by simp [hq, hyx]
          have h2 : r = y := by rw [hrx, hyx]
          simp only [Function.iterate_zero_apply]
          rw [h1, h2]
        · refine ⟨1, ?_⟩
          have h1 : q y = r := by simp [hq, hyx]
          have h2 : q r = r := by simp [hq, hrx, hr]
          simp only [Function.iterate_one]
          rw [h1, h2]
      · exact ⟨0, by simp [hq, hyx, hy]⟩
    | succ k ih =>
      intro y hy
      by_cases hqy : q y = y
      · exact ⟨0, hqy⟩
      · by_cases hyx : y = x
        · have h1 : q y = r := by simp [hq, hyx]
          have hrx : r ≠ x := by
            intro h
            apply hqy
            rw [h1, h, hyx]
          refine ⟨1, ?_⟩
          have h2 : q r = r := by simp [hq, hrx, hr]
          simp only [Function.iterate_one]
          rw [h1, h2]
        · have hqy' : q y = p y := by simp [hq, hyx]
          have hy' : p (p^[k] (p y)) = p^[k] (p y) := by
            rw [← Function.iterate_succ_apply]
            exact hy
          obtain ⟨m, hm⟩ := ih (p y) hy'
          refine ⟨m + 1, ?_⟩
          rw [Function.iterate_succ_apply, hqy']
          exact hm
  intro y
  obtain ⟨k, hk⟩ := hA y
  exact main k y hk

theorem update_root_of_root {α : Type u} [DecidableEq α] {p : α → α} {x r : α}
    (hA : AllSettle p) (hroot : UFRoot p x r) :
    ∀ y s, UFRoot (fun z => if z = x then r else p z) y s ↔ UFRoot p y s := by
  set q := fun z => if z = x then r else p z with hq
  have hr : p r = r := hroot.1
  have claimA : ∀ s, p s = s → q s = s := by
    intro s hs
    by_cases hsx : s = x
    · subst hsx
      have : UFRoot p s s := ⟨hs, 0, rfl⟩
      have hrs := ufRoot_unique hroot this
      simp [hq, hrs]
    · simp [hq, hsx, hs]
  have claimB : ∀ s, p s = s → ∀ n y, p^[n] y = s → UFRoot q y s := by
    intro s hs n
    induction n with
    | zero =>
      intro y hn
      simp only [Function.iterate_zero_apply] at hn
      subst hn
      exact ⟨claimA y hs, 0, rfl⟩
    | succ n ih =>
      intro y hn
      by_cases hpy : p y = y
      · have hyfix : p^[n + 1] y = y := iterate_fix hpy (n + 1)
        rw [hyfix] at hn
        subst hn
        exact ⟨claimA y hs, 0, rfl⟩
      · by_cases hyx : y = x
        · have hxs : UFRoot p x s := ⟨hs, n + 1, by rw [← hyx]; exact hn⟩
          have hrs := ufRoot_unique hroot hxs
          have h1 : q y = r := by simp [hq, hyx]
          refine ⟨?_, 1, ?_⟩
          · rw [← hrs]
            exact claimA r hr
          · simp only [Function.iterate_one]
            rw [h1, hrs]
        · have hqy : q y = p y := by simp [hq, hyx]
          rw [Function.iterate_succ_apply] at hn
          obtain ⟨hs', m, hm⟩ := ih (p y) hn
          exact ⟨hs', m + 1, by rw [Function.iterate_succ_apply, hqy]; exact hm⟩
  intro y s
  constructor
  · intro hqroot
    obtain ⟨t, ht⟩ := allSettle_root hA y
    obtain ⟨hts, n, hn⟩ := ht
    have hqt : UFRoot q y t := claimB t hts n y hn
    have := ufRoot_unique hqroot hqt
    subst this
    exact ⟨hts, n, hn⟩
  · intro hproot
    obtain ⟨hs, n, hn⟩ := hproot
    exact claimB s hs n y hn

theorem ufFind_ok {α : Type u} [DecidableEq α] :
    ∀ (fuel : ℕ) (p : α → α) (x : α) (k : ℕ), AllSettle p →
      p (p^[k] x) = p^[k] x → k < fuel →
      ∃ p', ufFind fuel p x = some (p^[k] x, p') ∧
        AllSettle p' ∧
        (∀ y, p' y = y ↔ p y = y) ∧
        (∀ y s, UFRoot p' y s ↔ UFRoot p y s) ∧
        (∀ y, p' y = p y ∨ UFRoot p y (p' y)) := by
  intro fuel
  induction fuel with
  | zero =>
    intro p x k _ _ hk
    omega
  | succ fuel ih =>
    intro p x k hA hk hkf
    by_cases hpx : p x = x
    · refine ⟨p, ?_, hA, fun y => Iff.rfl, fun y s => Iff.rfl, fun y => Or.inl rfl⟩
      unfold ufFind
      rw [if_pos hpx, iterate_fix hpx k]
    · have hk0 : k ≠ 0 := by
        intro h
        subst h
        simp only [Function.iterate_zero_apply] at hk
        exact hpx hk
      obtain ⟨k', rfl⟩ : ∃ k', k = k' + 1 := ⟨k - 1, by omega⟩
      have hk' : p (p^[k'] (p x)) = p^[k'] (p x) := by
        rw [← Function.iterate_succ_apply]
        exact hk
      obtain ⟨p₁, hfind, hA₁, hfix₁, hroot₁, hpt₁⟩ :=
        ih p (p x) k' hA hk' (by omega)
      have hreq : p^[k' + 1] x = p^[k'] (p x) := Function.iterate_succ_apply p k' x
      have hrfix : p (p^[k' + 1] x) = p^[k' + 1] x := hk
      have hxroot : UFRoot p x (p^[k' + 1] x) := ⟨hrfix, k' + 1, rfl⟩
      have hxroot₁ : UFRoot p₁ x (p^[k' + 1] x) :=
        (hroot₁ x (p^[k' + 1] x)).2 hxroot
      have hrne : p^[k' + 1] x ≠ x := by
        intro h
        rw [h] at hrfix
        exact hpx hrfix
      refine ⟨fun y => if y = x then p^[k' + 1] x else p₁ y, ?_, ?_, ?_, ?_, ?_⟩
      · unfold ufFind
        rw [if_neg hpx, hfind, hreq]
      · exact update_settle hA₁ ((hroot₁ _ _).2 hxroot).1
      · intro y
        by_cases hyx : y = x
        · subst hyx
          simp only [if_pos rfl]
          constructor
          · intro h
            exact absurd h hrne
          · intro h
            exact absurd h hpx
        · simp only [if_neg hyx]
          exact hfix₁ y
      · intro y s
        have h1 := update_root_of_root hA₁ hxroot₁ y s
        exact h1.trans (hroot₁ y s)
      · intro y
        by_cases hyx : y = x
        · subst hyx
          simp only [if_pos rfl]
          exact Or.inr hxroot
        · simp only [if_neg hyx]
          rcases hpt₁ y with h | h
          · exact Or.inl h
          · exact Or.inr ((hroot₁ y (p₁ y)).1 ((hroot₁ y (p₁ y)).2 h) )

theorem iterate_mem {α : Type u} {p : α → α} {D : Finset α} (hM : MapsInto p D)
    {y : α} (hy : y ∈ D) : ∀ n, p^[n] y ∈ D := by
  intro n
  induction n with
  | zero => exact hy
  | succ n ih =>
    rw [Function.iterate_succ_apply']
    exact hM _ ih

theorem root_mem {α : Type u} {p : α → α} {D : Finset α} (hM : MapsInto p D)
    {y r : α} (hy : y ∈ D) (h : UFRoot p y r) : r ∈ D := by
  obtain ⟨-, n, hn⟩ := h
  rw [← hn]
  exact iterate_mem hM hy n

theorem union_root_transfer {α : Type u} [DecidableEq α] {p : α → α} {ra rb : α}
    (hA : AllSettle p) (hra : p ra = ra) (hrb : p rb = rb) (hne : ra ≠ rb) :
    ∀ y s, UFRoot (fun z => if z = rb then ra else p z) y s ↔
      ((UFRoot p y s ∧ s ≠ rb) ∨ (UFRoot p y rb ∧ s = ra)) := by
  set q := fun z => if z = rb then ra else p z with hq
  have claimA : ∀ s, p s = s → s ≠ rb → q s = s := by
    intro s hs hsrb
    simp [hq, hsrb, hs]
  have hqra : q ra = ra := claimA ra hra hne
  have claimB : ∀ s, p s = s → s ≠ rb → ∀ n y, p^[n] y = s → UFRoot q y s := by
    intro s hs hsrb n
    induction n with
    | zero =>
      intro y hn
      simp only [Function.iterate_zero_apply] at hn
      subst hn
      exact ⟨claimA y hs hsrb, 0, rfl⟩
    | succ n ih =>
      intro y hn
      by_cases hpy : p y = y
      · have hyfix : p^[n + 1] y = y := iterate_fix hpy (n + 1)
        rw [hyfix] at hn
        subst hn
        exact ⟨claimA y hs hsrb, 0, rfl⟩
      · have hyrb : y ≠ rb := by
          intro h
          apply hpy
          rw [h]
          exact hrb
        have hqy : q y = p y := by simp [hq, hyrb]
        rw [Function.iterate_succ_apply] at hn
        obtain ⟨hs', m, hm⟩ := ih (p y) hn
        exact ⟨hs', m + 1, by rw [Function.iterate_succ_apply, hqy]; exact hm⟩
  have claimC : ∀ n y, p^[n] y = rb → UFRoot q y ra := by
    intro n
    induction n with
    | zero =>
      intro y hn
      simp only [Function.iterate_zero_apply] at hn
      subst hn
      refine ⟨hqra, 1, ?_⟩
      simp [hq]
    | succ n ih =>
      intro y hn
      by_cases hpy : p y = y
      · have hyfix : p^[n + 1] y = y := iterate_fix hpy (n + 1)
        rw [hyfix] at hn
        subst hn
        refine ⟨hqra, 1, ?_⟩
        simp [hq]
      · have hyrb : y ≠ rb := by
          intro h
          apply hpy
          rw [h]
          exact hrb
        have hqy : q y = p y := by simp [hq, hyrb]
        rw [Function.iterate_succ_apply] at hn
        obtain ⟨hs', m, hm⟩ := ih (p y) hn
        exact ⟨hs', m + 1, by rw [Function.iterate_succ_apply, hqy]; exact hm⟩
  intro y s
  constructor
  · intro h
    obtain ⟨t, ht⟩ := allSettle_root hA y
    obtain ⟨htfix, n, hn⟩ := ht
    by_cases htrb : t = rb
    · have hn' : p^[n] y = rb := by rw [← htrb]; exact hn
      have hqroot : UFRoot q y ra := claimC n y hn'
      have hsra := ufRoot_unique h hqroot
      subst hsra
      exact Or.inr ⟨⟨hrb, n, hn'⟩, rfl⟩
    · have hqroot : UFRoot q y t := claimB t htfix htrb n y hn
      have hst := ufRoot_unique h hqroot
      subst hst
      exact Or.inl ⟨⟨htfix, n, hn⟩, htrb⟩
  · rintro (⟨⟨hs, n, hn⟩, hsrb⟩ | ⟨⟨-, n, hn⟩, rfl⟩)
    · exact claimB s hs hsrb n y hn
    · exact claimC n y hn

theorem ufUnion_ok {α : Type u} [DecidableEq α] {D : Finset α} {fuel : ℕ}
    (hfuel : D.card < fuel) (p : α → α) (a b : α) (hInv : UFInv p D)
    (ha : a ∈ D) (hb : b ∈ D) :
    ∃ p', ufUnion fuel p a b = some p' ∧ UFInv p' D ∧
      ∀ x y, ufSame p' x y ↔
        (ufSame p x y ∨ (ufSame p x a ∧ ufSame p y b) ∨
          (ufSame p x b ∧ ufSame p y a)) := by
  obtain ⟨hA, hS, hM⟩ := hInv
  have hka := settle_bound hA hS a
  obtain ⟨p₁, hfind₁, hA₁, hfix₁, hroot₁, hpt₁⟩ :=
    ufFind_ok fuel p a D.card hA hka hfuel
  have hraroot : UFRoot p a (p^[D.card] a) := ⟨hka, D.card, rfl⟩
  have hS₁ : SuppIn p₁ D := fun x hx => hS x (fun h => hx ((hfix₁ x).2 h))
  have hM₁ : MapsInto p₁ D := by
    intro x hx
    rcases hpt₁ x with h | h
    · rw [h]; exact hM x hx
    · exact root_mem hM hx h
  have hkb := settle_bound hA₁ hS₁ b
  obtain ⟨p₂, hfind₂, hA₂, hfix₂, hroot₂, hpt₂⟩ :=
    ufFind_ok fuel p₁ b D.card hA₁ hkb hfuel
  have hrbroot₁ : UFRoot p₁ b (p₁^[D.card] b) := ⟨hkb, D.card, rfl⟩
  have hrbroot : UFRoot p b (p₁^[D.card] b) := (hroot₁ b _).1 hrbroot₁
  have hS₂ : SuppIn p₂ D := fun x hx => hS₁ x (fun h => hx ((hfix₂ x).2 h))
  have hM₂ : MapsInto p₂ D := by
    intro x hx
    rcases hpt₂ x with h | h
    · rw [h]; exact hM₁ x hx
    · exact root_mem hM₁ hx h
  have hrootboth : ∀ y s, UFRoot p₂ y s ↔ UFRoot p y s :=
    fun y s => (hroot₂ y s).trans (hroot₁ y s)
  have hfixboth : ∀ y, p₂ y = y ↔ p y = y :=
    fun y => (hfix₂ y).trans (hfix₁ y)
  have hsame₂ : ∀ x y, ufSame p₂ x y ↔ ufSame p x y := by
    intro x y
    constructor
    · rintro ⟨r, h1, h2⟩
      exact ⟨r, (hrootboth x r).1 h1, (hrootboth y r).1 h2⟩
    · rintro ⟨r, h1, h2⟩
      exact ⟨r, (hrootboth x r).2 h1, (hrootboth y r).2 h2⟩
  by_cases hrarb : p^[D.card] a = p₁^[D.card] b
  · refine ⟨p₂, ?_, ⟨hA₂, hS₂, hM₂⟩, ?_⟩
    · simp only [ufUnion, hfind₁, hfind₂]
      rw [if_neg (fun h => h hrarb)]
    · intro x y
      have hab : ufSame p a b := ⟨p^[D.card] a, hraroot, hrarb ▸ hrbroot⟩
      rw [hsame₂ x y]
      constructor
      · exact Or.inl
      · rintro (h | ⟨h1, h2⟩ | ⟨h1, h2⟩)
        · exact h
        · exact ufSame_trans (ufSame_trans h1 hab) (ufSame_symm h2)
        · exact ufSame_trans (ufSame_trans h1 (ufSame_symm hab)) (ufSame_symm h2)
  · have hrafix₂ : p₂ (p^[D.card] a) = p^[D.card] a :=
      (hfixboth _).2 hraroot.1
    have hrbfix₂ : p₂ (p₁^[D.card] b) = p₁^[D.card] b :=
      (hfixboth _).2 hrbroot.1
    have htransfer := union_root_transfer hA₂ hrafix₂ hrbfix₂ hrarb
    refine ⟨fun y => if y = p₁^[D.card] b then p^[D.card] a else p₂ y, ?_, ?_, ?_⟩
    · simp only [ufUnion, hfind₁, hfind₂]
      rw [if_pos hrarb]
    · refine ⟨update_settle hA₂ hrafix₂, ?_, ?_⟩
      · intro x hx
        by_cases hxrb : x = p₁^[D.card] b
        · rw [hxrb]
          exact root_mem hM hb hrbroot
        · simp only [if_neg hxrb] at hx
          exact hS₂ x hx
      · intro x hx
        by_cases hxrb : x = p₁^[D.card] b
        · simp only [if_pos hxrb]
          exact root_mem hM ha hraroot
        · simp only [if_neg hxrb]
          exact hM₂ x hx
    · intro x y
      constructor
      · rintro ⟨s, hxs, hys⟩
        rcases (htransfer x s).1 hxs with ⟨hxs', hsrb⟩ | ⟨hxrb, hsra⟩
        · rcases (htransfer y s).1 hys with ⟨hys', -⟩ | ⟨hyrb, hsra⟩
          · exact Or.inl ⟨s, (hrootboth x s).1 hxs', (hrootboth y s).1 hys'⟩
          · subst hsra
            exact Or.inr (Or.inl ⟨⟨p^[D.card] a, (hrootboth x _).1 hxs', hraroot⟩,
              ⟨p₁^[D.card] b, (hrootboth y _).1 hyrb, hrbroot⟩⟩)
        · subst hsra
          rcases (htransfer y _).1 hys with ⟨hys', -⟩ | ⟨hyrb, -⟩
          · exact Or.inr (Or.inr ⟨⟨p₁^[D.card] b, (hrootboth x _).1 hxrb, hrbroot⟩,
              ⟨p^[D.card] a, (hrootboth y _).1 hys', hraroot⟩⟩)
          · exact Or.inl ⟨p₁^[D.card] b, (hrootboth x _).1 hxrb, (hrootboth y _).1 hyrb⟩
      · have toRootA : ∀ z, ufSame p z a → UFRoot p z (p^[D.card] a) := by
          rintro z ⟨t, hzt, hat⟩
          rw [ufRoot_unique hat hraroot] at hzt
          exact hzt
        have toRootB : ∀ z, ufSame p z b → UFRoot p z (p₁^[D.card] b) := by
          rintro z ⟨t, hzt, hbt⟩
          rw [ufRoot_unique hbt hrbroot] at hzt
          exact hzt
        rintro (⟨s, hxs, hys⟩ | ⟨hxa, hyb⟩ | ⟨hxb, hya⟩)
        · by_cases hsrb : s = p₁^[D.card] b
          · refine ⟨p^[D.card] a, ?_, ?_⟩
            · exact (htransfer x _).2 (Or.inr ⟨(hrootboth x _).2 (hsrb ▸ hxs), rfl⟩)
            · exact (htransfer y _).2 (Or.inr ⟨(hrootboth y _).2 (hsrb ▸ hys), rfl⟩)
          · refine ⟨s, ?_, ?_⟩
            · exact (htransfer x s).2 (Or.inl ⟨(hrootboth x s).2 hxs, hsrb⟩)
            · exact (htransfer y s).2 (Or.inl ⟨(hrootboth y s).2 hys, hsrb⟩)
        · refine ⟨p^[D.card] a, ?_, ?_⟩
          · exact (htransfer x _).2 (Or.inl ⟨(hrootboth x _).2 (toRootA x hxa), hrarb⟩)
          · exact (htransfer y _).2 (Or.inr ⟨(hrootboth y _).2 (toRootB y hyb), rfl⟩)
        · refine ⟨p^[D.card] a, ?_, ?_⟩
          · exact (htransfer x _).2 (Or.inr ⟨(hrootboth x _).2 (toRootB x hxb), rfl⟩)
          · exact (htransfer y _).2 (Or.inl ⟨(hrootboth y _).2 (toRootA y hya), hrarb⟩)

/-- One edge of the retained-pair graph (unordered). -/
def pairStep {α : Type u} (pairs : List (SimPair α)) (x y : α) : Prop :=
  ∃ pr ∈ pairs, (pr.doc1 = x ∧ pr.doc2 = y) ∨ (pr.doc1 = y ∧ pr.doc2 = x)

/-- Transitive connectivity through retained pairs (reflexive-symmetric-
transitive closure of `pairStep`). -/
def Connected {α : Type u} (pairs : List (SimPair α)) (x y : α) : Prop :=
  Relation.EqvGen (pairStep pairs) x y

theorem eqvGen_collapse {α : Type u} {r s : α → α → Prop}
    (h : ∀ u v, r u v → Relation.EqvGen s u v) {x y : α}
    (hxy : Relation.EqvGen r x y) : Relation.EqvGen s x y := by
  induction hxy with
  | rel u v huv => exact h u v huv
  | refl u => exact Relation.EqvGen.refl u
  | symm u v _ ih => exact Relation.EqvGen.symm u v ih
  | trans u v w _ _ ih1 ih2 => exact Relation.EqvGen.trans u v w ih1 ih2

theorem ufSame_equivalence {α : Type u} {p : α → α} (hA : AllSettle p) :
    Equivalence (ufSame p) :=
  ⟨ufSame_refl hA, ufSame_symm, fun h h' => ufSame_trans h h'⟩

theorem ufUnionAll_ok {α : Type u} [DecidableEq α] {D : Finset α} {fuel : ℕ}
    (hfuel : D.card < fuel) :
    ∀ (pairs : List (SimPair α)) (p : α → α), UFInv p D →
      (∀ pr ∈ pairs, pr.doc1 ∈ D ∧ pr.doc2 ∈ D) →
      ∃ p', ufUnionAll fuel pairs p = some p' ∧ UFInv p' D ∧
        ∀ x y, ufSame p' x y ↔
          Relation.EqvGen (fun u v => ufSame p u v ∨ pairStep pairs u v) x y := by
  intro pairs
  induction pairs with
  | nil =>
    intro p hInv _
    refine ⟨p, rfl, hInv, fun x y => ⟨?_, ?_⟩⟩
    · intro h
      exact Relation.EqvGen.rel x y (Or.inl h)
    · intro h
      have h' : Relation.EqvGen (ufSame p) x y := by
        refine eqvGen_collapse ?_ h
        rintro u v (huv | ⟨pr, hpr, -⟩)
        · exact Relation.EqvGen.rel u v huv
        · exact absurd hpr (List.not_mem_nil pr)
      exact ((ufSame_equivalence hInv.1).eqvGen_iff).1 h'
  | cons pr rest ih =>
    intro p hInv hdocs
    obtain ⟨hd1, hd2⟩ := hdocs pr (List.mem_cons_self pr rest)
    obtain ⟨p₁, hu, hInv₁, hjoin⟩ :=
      ufUnion_ok hfuel p pr.doc1 pr.doc2 hInv hd1 hd2
    obtain ⟨p', hrest, hInv', hiff⟩ :=
      ih p₁ hInv₁ (fun q hq => hdocs q (List.mem_cons_of_mem pr hq))
    refine ⟨p', ?_, hInv', ?_⟩
    · simp only [ufUnionAll, hu]
      exact hrest
    · intro x y
      rw [hiff x y]
      have hstepab : Relation.EqvGen
          (fun u v => ufSame p u v ∨ pairStep (pr :: rest) u v) pr.doc1 pr.doc2 :=
        Relation.EqvGen.rel _ _ (Or.inr ⟨pr, List.mem_cons_self pr rest,
          Or.inl ⟨rfl, rfl⟩⟩)
      constructor
      · refine eqvGen_collapse ?_
        rintro u v (huv | huv)
        · rcases (hjoin u v).1 huv with h | ⟨hua, hvb⟩ | ⟨hub, hva⟩
          · exact Relation.EqvGen.rel u v (Or.inl h)
          · refine Relation.EqvGen.trans u pr.doc2 v ?_
              (Relation.EqvGen.symm _ _ (Relation.EqvGen.rel v pr.doc2 (Or.inl hvb)))
            exact Relation.EqvGen.trans u pr.doc1 pr.doc2
              (Relation.EqvGen.rel u pr.doc1 (Or.inl hua)) hstepab
          · refine Relation.EqvGen.trans u pr.doc1 v ?_
              (Relation.EqvGen.symm _ _ (Relation.EqvGen.rel v pr.doc1 (Or.inl hva)))
            exact Relation.EqvGen.trans u pr.doc2 pr.doc1
              (Relation.EqvGen.rel u pr.doc2 (Or.inl hub))
              (Relation.EqvGen.symm _ _ hstepab)
        · exact Relation.EqvGen.rel u v
            (Or.inr ⟨huv.choose, List.mem_cons_of_mem pr huv.choose_spec.1,
              huv.choose_spec.2⟩)
      · refine eqvGen_collapse ?_
        rintro u v (huv | ⟨q, hq, hcase⟩)
        · exact Relation.EqvGen.rel u v (Or.inl ((hjoin u v).2 (Or.inl huv)))
        · rcases List.mem_cons.mp hq with rfl | hq'
          · have hA : AllSettle p := hInv.1
            rcases hcase with ⟨h1, h2⟩ | ⟨h1, h2⟩
            · refine Relation.EqvGen.rel u v (Or.inl ((hjoin u v).2 (Or.inr (Or.inl
                ⟨?_, ?_⟩))))
              · rw [← h1]; exact ufSame_refl hA q.doc1
              · rw [← h2]; exact ufSame_refl hA q.doc2
            · refine Relation.EqvGen.rel u v (Or.inl ((hjoin u v).2 (Or.inr (Or.inr
                ⟨?_, ?_⟩))))
              · rw [← h2]; exact ufSame_refl hA q.doc2
              · rw [← h1]; exact ufSame_refl hA q.doc1
          · exact Relation.EqvGen.rel u v (Or.inr ⟨q, hq', hcase⟩)

theorem ufSame_id {α : Type u} (x y : α) : ufSame (fun z : α => z) x y ↔ x = y := by
  constructor
  · rintro ⟨r, ⟨-, n, hn⟩, ⟨-, m, hm⟩⟩
    rw [iterate_fix rfl n] at hn
    rw [iterate_fix rfl m] at hm
    rw [hn, ← hm]
  · rintro rfl
    exact ufSame_refl (fun z => ⟨0, rfl⟩) x

/-- After all unions (starting from the identity parent map), two documents
share a root exactly when they are connected through the pair list. -/
theorem ufUnionAll_connected {α : Type u} [DecidableEq α] {D : Finset α} {fuel : ℕ}
    (hfuel : D.card < fuel) (pairs : List (SimPair α))
    (hdocs : ∀ pr ∈ pairs, pr.doc1 ∈ D ∧ pr.doc2 ∈ D) :
    ∃ p', ufUnionAll fuel pairs (fun z => z) = some p' ∧ UFInv p' D ∧
      ∀ x y, ufSame p' x y ↔ Connected pairs x y := by
  have hInv : UFInv (fun z : α => z) D :=
    ⟨fun z => ⟨0, rfl⟩, fun x hx => absurd rfl hx, fun x hx => hx⟩
  obtain ⟨p', hu, hInv', hiff⟩ := ufUnionAll_ok hfuel pairs _ hInv hdocs
  refine ⟨p', hu, hInv', fun x y => ?_⟩
  rw [hiff x y]
  constructor
  · refine eqvGen_collapse ?_
    rintro u v (huv | huv)
    · rw [(ufSame_id u v).1 huv]
      exact Relation.EqvGen.refl v
    · exact Relation.EqvGen.rel u v huv
  · refine eqvGen_collapse ?_
    intro u v huv
    exact Relation.EqvGen.rel u v (Or.inr huv)

/-- Membership under a key in a cluster association list. -/
def inAcc {α : Type u} (acc : List (α × List α)) (k x : α) : Prop :=
  ∃ ms, (k, ms) ∈ acc ∧ x ∈ ms

theorem addToCluster_keys {α : Type u} [DecidableEq α]
    (acc : List (α × List α)) (r d : α) :
    (addToCluster acc r d).map Prod.fst =
      if r ∈ acc.map Prod.fst then acc.map Prod.fst
      else acc.map Prod.fst ++ [r] := by
  induction acc with
  | nil => simp [addToCluster]
  | cons e rest ih =>
    obtain ⟨r', ms'⟩ := e
    by_cases h : r' = r
    · simp only [addToCluster, if_pos h, List.map_cons]
      rw [if_pos (show r ∈ r' :: List.map Prod.fst rest by
        rw [← h]; exact List.mem_cons_self r' _)]
    · simp only [addToCluster, if_neg h, List.map_cons, ih]
      by_cases h2 : r ∈ rest.map Prod.fst
      · rw [if_pos h2, if_pos (List.mem_cons_of_mem r' h2)]
      · rw [if_neg h2, if_neg ?_]
        · rfl
        · intro hc
          rcases List.mem_cons.mp hc with hc | hc
          · exact h hc.symm
          · exact h2 hc

theorem mem_addToCluster {α : Type u} [DecidableEq α]
    (acc : List (α × List α)) (r d : α)
    (hkeys : (acc.map Prod.fst).Nodup) (e : α × List α) :
    e ∈ addToCluster acc r d ↔
      ((e ∈ acc ∧ e.1 ≠ r) ∨
       (∃ ms, (r, ms) ∈ acc ∧ e = (r, ms ++ [d])) ∨
       (r ∉ acc.map Prod.fst ∧ e = (r, [d]))) := by
  induction acc with
  | nil =>
    simp [addToCluster]
  | cons e₀ rest ih =>
    obtain ⟨r', ms'⟩ := e₀
    simp only [List.map_cons, List.nodup_cons] at hkeys
    obtain ⟨hr'new, hrest⟩ := hkeys
    by_cases h : r' = r
    · simp only [addToCluster, if_pos h, List.mem_cons, List.map_cons]
      constructor
      · rintro (rfl | he)
        · refine Or.inr (Or.inl ⟨ms', Or.inl ?_, ?_⟩)
          · rw [h]
          · rw [h]
        · refine Or.inl ⟨Or.inr he, fun hc => hr'new ?_⟩
          rw [h, ← hc]
          exact List.mem_map_of_mem Prod.fst he
      · rintro (⟨he, hne⟩ | ⟨ms, hms, rfl⟩ | ⟨hnotin, rfl⟩)
        · rcases he with rfl | he
          · exact absurd h hne
          · exact Or.inr he
        · rcases hms with hms | hms
          · have h1 : ms = ms' := ((Prod.mk.injEq _ _ _ _).mp hms).2
            refine Or.inl ?_
            rw [h1, h]
          · exact absurd (List.mem_map_of_mem Prod.fst hms) (h ▸ hr'new)
        · exact absurd (Or.inl h.symm) hnotin
    · simp only [addToCluster, if_neg h, List.mem_cons, List.map_cons, ih hrest]
      constructor
      · rintro (rfl | (⟨he, hne⟩ | ⟨ms, hms, rfl⟩ | ⟨hnotin, rfl⟩))
        · exact Or.inl ⟨Or.inl rfl, h⟩
        · exact Or.inl ⟨Or.inr he, hne⟩
        · exact Or.inr (Or.inl ⟨ms, Or.inr hms, rfl⟩)
        · refine Or.inr (Or.inr ⟨?_, rfl⟩)
          rintro (hc | hc)
          · exact h hc.symm
          · exact hnotin hc
      · rintro (⟨he, hne⟩ | ⟨ms, hms, rfl⟩ | ⟨hnotin, rfl⟩)
        · rcases he with rfl | he
          · exact Or.inl rfl
          · exact Or.inr (Or.inl ⟨he, hne⟩)
        · rcases hms with hms | hms
          · exact absurd ((Prod.mk.injEq _ _ _ _).mp hms).1.symm h
          · exact Or.inr (Or.inr (Or.inl ⟨ms, hms, rfl⟩))
        · refine Or.inr (Or.inr (Or.inr ⟨?_, rfl⟩))
          intro hc
          exact hnotin (Or.inr hc)

theorem acc_key_unique {α : Type u} {acc : List (α × List α)}
    (h : (acc.map Prod.fst).Nodup) {k : α} {ms ms' : List α}
    (h1 : (k, ms) ∈ acc) (h2 : (k, ms') ∈ acc) : ms = ms' := by
  induction acc with
  | nil => exact absurd h1 (List.not_mem_nil _)
  | cons e rest ih =>
    simp only [List.map_cons, List.nodup_cons] at h
    rcases List.mem_cons.mp h1 with rfl | h1'
    · rcases List.mem_cons.mp h2 with he | h2'
      · exact (((Prod.mk.injEq _ _ _ _).mp he).2).symm
      · exact absurd (List.mem_map_of_mem Prod.fst h2') h.1
    · rcases List.mem_cons.mp h2 with rfl | h2'
      · exact absurd (List.mem_map_of_mem Prod.fst h1') h.1
      · exact ih h.2 h1' h2'

theorem inAcc_addToCluster {α : Type u} [DecidableEq α]
    {acc : List (α × List α)} (hkeys : (acc.map Prod.fst).Nodup) (r d k x : α) :
    inAcc (addToCluster acc r d) k x ↔ (inAcc acc k x ∨ (k = r ∧ x = d)) := by
  constructor
  · rintro ⟨ms, hm, hx⟩
    rcases (mem_addToCluster acc r d hkeys (k, ms)).1 hm with
      ⟨hmem, -⟩ | ⟨ms₀, hms₀, heq⟩ | ⟨-, heq⟩
    · exact Or.inl ⟨ms, hmem, hx⟩
    · have hk : k = r := ((Prod.mk.injEq _ _ _ _).mp heq).1
      have hmseq : ms = ms₀ ++ [d] := ((Prod.mk.injEq _ _ _ _).mp heq).2
      rw [hmseq] at hx
      rcases List.mem_append.mp hx with hx | hx
      · exact Or.inl ⟨ms₀, hk ▸ hms₀, hx⟩
      · exact Or.inr ⟨hk, List.mem_singleton.mp hx⟩
    · have hk : k = r := ((Prod.mk.injEq _ _ _ _).mp heq).1
      have hmseq : ms = [d] := ((Prod.mk.injEq _ _ _ _).mp heq).2
      rw [hmseq] at hx
      exact Or.inr ⟨hk, List.mem_singleton.mp hx⟩
  · rintro (⟨ms, hm, hx⟩ | ⟨rfl, rfl⟩)
    · by_cases hk : k = r
      · refine ⟨ms ++ [d], ?_, List.mem_append_left _ hx⟩
        rw [hk]
        exact (mem_addToCluster acc r d hkeys _).2 (Or.inr (Or.inl ⟨ms, hk ▸ hm, rfl⟩))
      · exact ⟨ms, (mem_addToCluster acc r d hkeys _).2 (Or.inl ⟨hm, hk⟩), hx⟩
    · by_cases hr : k ∈ acc.map Prod.fst
      · obtain ⟨e, he, hek⟩ := List.mem_map.mp hr
        refine ⟨e.2 ++ [x], ?_, List.mem_append_right _ (List.mem_singleton.mpr rfl)⟩
        refine (mem_addToCluster acc k x hkeys _).2 (Or.inr (Or.inl ⟨e.2, ?_, rfl⟩))
        rw [← hek, Prod.mk.eta]
        exact he
      · exact ⟨[x], (mem_addToCluster acc k x hkeys _).2 (Or.inr (Or.inr ⟨hr, rfl⟩)),
          List.mem_singleton.mpr rfl⟩

theorem ufInv_of_find {α : Type u} {p p₁ : α → α} {D : Finset α}
    (hInv : UFInv p D) (hA₁ : AllSettle p₁)
    (hfix : ∀ y, p₁ y = y ↔ p y = y)
    (hpt : ∀ y, p₁ y = p y ∨ UFRoot p y (p₁ y)) : UFInv p₁ D := by
  obtain ⟨hA, hS, hM⟩ := hInv
  refine ⟨hA₁, fun x hx => hS x (fun h => hx ((hfix x).2 h)), ?_⟩
  intro x hx
  rcases hpt x with h | h
  · rw [h]; exact hM x hx
  · exact root_mem hM hx h

theorem buildClusters_ok {α : Type u} [DecidableEq α] {D : Finset α} {fuel : ℕ}
    (hfuel : D.card < fuel) :
    ∀ (l : List α) (p : α → α) (acc : List (α × List α)),
      UFInv p D → l.Nodup →
      (acc.map Prod.fst).Nodup →
      (∀ e ∈ acc, ∀ x ∈ e.2, UFRoot p x e.1) →
      (∀ e ∈ acc, e.2.Nodup) →
      (∀ e ∈ acc, ∀ x ∈ e.2, x ∉ l) →
      ∃ res p'', buildClusters fuel l p acc = some (res, p'') ∧
        (∀ e ∈ res, ∀ x, x ∈ e.2 ↔ (inAcc acc e.1 x ∨ (x ∈ l ∧ UFRoot p x e.1))) ∧
        (∀ e ∈ res, ∀ x ∈ e.2, UFRoot p x e.1) ∧
        (∀ e ∈ res, e.2.Nodup) ∧
        (∀ k ∈ acc.map Prod.fst, k ∈ res.map Prod.fst) ∧
        (∀ d ∈ l, ∃ e ∈ res, UFRoot p d e.1) := by
  intro l
  induction l with
  | nil =>
    intro p acc hInv _ hkeys hroots hnodups _
    refine ⟨acc, p, rfl, ?_, hroots, hnodups, fun k hk => hk, fun d hd => absurd hd
      (List.not_mem_nil d)⟩
    intro e he x
    constructor
    · intro hx
      refine Or.inl ⟨e.2, ?_, hx⟩
      rw [Prod.mk.eta]
      exact he
    · rintro (⟨ms, hm, hx⟩ | ⟨hx, -⟩)
      · rw [acc_key_unique hkeys hm (by rw [Prod.mk.eta]; exact he)] at hx
        exact hx
      · exact absurd hx (List.not_mem_nil x)
  | cons d rest ih =>
    intro p acc hInv hl hkeys hroots hnodups hfresh
    obtain ⟨hdrest, hrestnodup⟩ := List.nodup_cons.mp hl
    obtain ⟨hA, hS, hM⟩ := hInv
    have hkd := settle_bound hA hS d
    obtain ⟨p₁, hfind, hA₁, hfix₁, hroot₁, hpt₁⟩ :=
      ufFind_ok fuel p d D.card hA hkd hfuel
    have hInv₁ : UFInv p₁ D := ufInv_of_find ⟨hA, hS, hM⟩ hA₁ hfix₁ hpt₁
    have hdroot : UFRoot p d (p^[D.card] d) := ⟨hkd, D.card, rfl⟩
    have hkeys' : ((addToCluster acc (p^[D.card] d) d).map Prod.fst).Nodup := by
      rw [addToCluster_keys]
      by_cases hmem : p^[D.card] d ∈ acc.map Prod.fst
      · rw [if_pos hmem]; exact hkeys
      · rw [if_neg hmem]
        refine List.Nodup.append hkeys (List.nodup_singleton _) ?_
        intro a ha hb
        rw [List.mem_singleton.mp hb] at ha
        exact hmem ha
    have hroots' : ∀ e ∈ addToCluster acc (p^[D.card] d) d, ∀ x ∈ e.2,
        UFRoot p₁ x e.1 := by
      intro e he x hx
      rcases (mem_addToCluster acc _ d hkeys e).1 he with
        ⟨hmem, -⟩ | ⟨ms, hms, heq⟩ | ⟨-, heq⟩
      · exact (hroot₁ x e.1).2 (hroots e hmem x hx)
      · rw [heq]
        rw [heq] at hx
        rcases List.mem_append.mp hx with hxm | hxd
        · exact (hroot₁ x _).2 (hroots (p^[D.card] d, ms) hms x hxm)
        · rw [List.mem_singleton.mp hxd]
          exact (hroot₁ d _).2 hdroot
      · rw [heq]
        rw [heq] at hx
        rw [List.mem_singleton.mp hx]
        exact (hroot₁ d _).2 hdroot
    have hnodups' : ∀ e ∈ addToCluster acc (p^[D.card] d) d, e.2.Nodup := by
      intro e he
      rcases (mem_addToCluster acc _ d hkeys e).1 he with
        ⟨hmem, -⟩ | ⟨ms, hms, heq⟩ | ⟨-, heq⟩
      · exact hnodups e hmem
      · rw [heq]
        refine List.Nodup.append (hnodups (p^[D.card] d, ms) hms)
          (List.nodup_singleton _) ?_
        intro a ha hb
        rw [List.mem_singleton.mp hb] at ha
        exact hfresh (p^[D.card] d, ms) hms d ha (List.mem_cons_self d rest)
      · rw [heq]
        exact List.nodup_singleton d
    have hfresh' : ∀ e ∈ addToCluster acc (p^[D.card] d) d, ∀ x ∈ e.2,
        x ∉ rest := by
      intro e he x hx
      rcases (mem_addToCluster acc _ d hkeys e).1 he with
        ⟨hmem, -⟩ | ⟨ms, hms, heq⟩ | ⟨-, heq⟩
      · intro hc
        exact hfresh e hmem x hx (List.mem_cons_of_mem d hc)
      · rw [heq] at hx
        rcases List.mem_append.mp hx with hxm | hxd
        · intro hc
          exact hfresh (p^[D.card] d, ms) hms x hxm (List.mem_cons_of_mem d hc)
        · rw [List.mem_singleton.mp hxd]
          exact hdrest
      · rw [heq] at hx
        rw [List.mem_singleton.mp hx]
        exact hdrest
    obtain ⟨res, p'', hbuild, hC1, hCroots, hCnodups, hCkeys, hC2⟩ :=
      ih p₁ (addToCluster acc (p^[D.card] d) d) hInv₁ hrestnodup hkeys'
        hroots' hnodups' hfresh'
    refine ⟨res, p'', ?_, ?_, ?_, hCnodups, ?_, ?_⟩
    · simp only [buildClusters, hfind]
      exact hbuild
    · intro e he x
      rw [hC1 e he x, inAcc_addToCluster hkeys]
      constructor
      · rintro ((hacc | ⟨hk, hxd⟩) | ⟨hrest, hroot⟩)
        · exact Or.inl hacc
        · refine Or.inr ⟨?_, ?_⟩
          · rw [hxd]; exact List.mem_cons_self d rest
          · rw [hxd, hk]; exact hdroot
        · exact Or.inr ⟨List.mem_cons_of_mem d hrest, (hroot₁ x e.1).1 hroot⟩
      · rintro (hacc | ⟨hmem, hroot⟩)
        · exact Or.inl (Or.inl hacc)
        · rcases List.mem_cons.mp hmem with hxd | hrest
          · refine Or.inl (Or.inr ⟨?_, hxd⟩)
            rw [hxd] at hroot
            exact ufRoot_unique hroot hdroot
          · exact Or.inr ⟨hrest, (hroot₁ x e.1).2 hroot⟩
    · intro e he x hx
      exact (hroot₁ x e.1).1 (hCroots e he x hx)
    · intro k hk
      refine hCkeys k ?_
      rw [addToCluster_keys]
      by_cases hmem : p^[D.card] d ∈ acc.map Prod.fst
      · rw [if_pos hmem]; exact hk
      · rw [if_neg hmem]; exact List.mem_append_left _ hk
    · intro d' hd'
      rcases List.mem_cons.mp hd' with rfl | hd'rest
      · have hrkey : p^[D.card] d' ∈
            (addToCluster acc (p^[D.card] d') d').map Prod.fst := by
          rw [addToCluster_keys]
          by_cases hmem : p^[D.card] d' ∈ acc.map Prod.fst
          · rw [if_pos hmem]; exact hmem
          · rw [if_neg hmem]
            exact List.mem_append_right _ (List.mem_singleton.mpr rfl)
        obtain ⟨e, he, hek⟩ := List.mem_map.mp (hCkeys _ hrkey)
        exact ⟨e, he, hek ▸ hdroot⟩
      · obtain ⟨e, he, heroot⟩ := hC2 d' hd'rest
        exact ⟨e, he, (hroot₁ d' e.1).1 heroot⟩

theorem mem_insertNew {α : Type u} [DecidableEq α] {l : List α} {x y : α} :
    x ∈ insertNew l y ↔ x ∈ l ∨ x = y := by
  unfold insertNew
  by_cases h : y ∈ l
  · rw [if_pos h]
    constructor
    · exact Or.inl
    · rintro (hx | rfl)
      · exact hx
      · exact h
  · rw [if_neg h]
    simp [List.mem_append]

theorem insertNew_nodup {α : Type u} [DecidableEq α] {l : List α} {y : α}
    (h : l.Nodup) : (insertNew l y).Nodup := by
  unfold insertNew
  by_cases hy : y ∈ l
  · rw [if_pos hy]; exact h
  · rw [if_neg hy]
    refine List.Nodup.append h (List.nodup_singleton _) ?_
    intro a ha hb
    rw [List.mem_singleton.mp hb] at ha
    exact hy ha

theorem allDocsOf_aux {α : Type u} [DecidableEq α] :
    ∀ (pairs : List (SimPair α)) (acc : List α),
      (acc.Nodup → (pairs.foldl
        (fun acc pr => insertNew (insertNew acc pr.doc1) pr.doc2) acc).Nodup) ∧
      (∀ x, x ∈ pairs.foldl
          (fun acc pr => insertNew (insertNew acc pr.doc1) pr.doc2) acc ↔
        (x ∈ acc ∨ ∃ pr ∈ pairs, pr.doc1 = x ∨ pr.doc2 = x)) := by
  intro pairs
  induction pairs with
  | nil =>
    intro acc
    refine ⟨fun h => h, fun x => ?_⟩
    simp
  | cons pr rest ih =>
    intro acc
    constructor
    · intro h
      exact (ih (insertNew (insertNew acc pr.doc1) pr.doc2)).1
        (insertNew_nodup (insertNew_nodup h))
    · intro x
      rw [List.foldl_cons, (ih (insertNew (insertNew acc pr.doc1) pr.doc2)).2 x,
        mem_insertNew, mem_insertNew]
      constructor
      · rintro (((hx | rfl) | rfl) | ⟨q, hq, hcase⟩)
        · exact Or.inl hx
        · exact Or.inr ⟨pr, List.mem_cons_self pr rest, Or.inl rfl⟩
        · exact Or.inr ⟨pr, List.mem_cons_self pr rest, Or.inr rfl⟩
        · exact Or.inr ⟨q, List.mem_cons_of_mem pr hq, hcase⟩
      · rintro (hx | ⟨q, hq, hcase⟩)
        · exact Or.inl (Or.inl (Or.inl hx))
        · rcases List.mem_cons.mp hq with rfl | hq'
          · rcases hcase with h1 | h2
            · exact Or.inl (Or.inl (Or.inr h1.symm))
            · exact Or.inl (Or.inr h2.symm)
          · exact Or.inr ⟨q, hq', hcase⟩

theorem allDocsOf_nodup {α : Type u} [DecidableEq α] (pairs : List (SimPair α)) :
    (allDocsOf pairs).Nodup :=
  (allDocsOf_aux pairs []).1 List.nodup_nil

theorem mem_allDocsOf {α : Type u} [DecidableEq α] {pairs : List (SimPair α)}
    {x : α} : x ∈ allDocsOf pairs ↔ ∃ pr ∈ pairs, pr.doc1 = x ∨ pr.doc2 = x := by
  rw [show allDocsOf pairs = pairs.foldl
    (fun acc pr => insertNew (insertNew acc pr.doc1) pr.doc2) [] from rfl,
    (allDocsOf_aux pairs []).2 x]
  simp

theorem dictFind_dictInsert {κ ν : Type _} [DecidableEq κ]
    (acc : List (κ × ν)) (k : κ) (v : ν) (q : κ) :
    dictFind q (dictInsert acc k v) = if q = k then some v else dictFind q acc := by
  induction acc with
  | nil =>
    simp only [dictInsert, dictFind]
    by_cases h : q = k
    · rw [if_pos h.symm, if_pos h]
    · rw [if_neg (fun hc => h hc.symm), if_neg h]
  | cons e rest ih =>
    obtain ⟨k', v'⟩ := e
    simp only [dictInsert]
    by_cases h : k' = k
    · rw [if_pos h]
      simp only [dictFind]
      by_cases hq : q = k
      · rw [if_pos hq.symm, if_pos hq]
      · rw [if_neg (fun hc => hq hc.symm), if_neg hq,
          if_neg (fun hc : k' = q => hq (hc.symm.trans h))]
    · rw [if_neg h]
      simp only [dictFind, ih]
      by_cases hq : k' = q
      · rw [if_pos hq, if_neg (fun hc => h (hq.trans hc)), if_pos hq]
      · rw [if_neg hq]
        by_cases hqk : q = k
        · rw [if_pos hqk, if_pos hqk]
        · rw [if_neg hqk, if_neg hqk, if_neg hq]

theorem pairLookup_sound {α : Type u} [LinearOrder α] :
    ∀ (pairs : List (SimPair α)) (acc : List ((α × α) × ℚ)) (k : α × α) (v : ℚ),
      dictFind k (pairs.foldl
        (fun acc pr => dictInsert acc (pairKey pr.doc1 pr.doc2) pr.similarity) acc)
        = some v →
      ((∃ pr ∈ pairs, pairKey pr.doc1 pr.doc2 = k ∧ pr.similarity = v) ∨
        dictFind k acc = some v) := by
  intro pairs
  induction pairs with
  | nil =>
    intro acc k v h
    exact Or.inr h
  | cons pr rest ih =>
    intro acc k v h
    rw [List.foldl_cons] at h
    rcases ih _ k v h with ⟨q, hq, hkey, hsim⟩ | hfound
    · exact Or.inl ⟨q, List.mem_cons_of_mem pr hq, hkey, hsim⟩
    · rw [dictFind_dictInsert] at hfound
      by_cases hk : k = pairKey pr.doc1 pr.doc2
      · rw [if_pos hk] at hfound
        exact Or.inl ⟨pr, List.mem_cons_self pr rest, hk.symm,
          (Option.some.injEq _ _).mp hfound⟩
      · rw [if_neg hk] at hfound
        exact Or.inr hfound

theorem dictFind_foldl_skip {α : Type u} [LinearOrder α] :
    ∀ (pairs : List (SimPair α)) (acc : List ((α × α) × ℚ)) (k : α × α),
      (∀ pr ∈ pairs, pairKey pr.doc1 pr.doc2 ≠ k) →
      dictFind k (pairs.foldl
        (fun acc pr => dictInsert acc (pairKey pr.doc1 pr.doc2) pr.similarity) acc)
        = dictFind k acc := by
  intro pairs
  induction pairs with
  | nil =>
    intro acc k _
    rfl
  | cons pr rest ih =>
    intro acc k hk
    rw [List.foldl_cons, ih _ k (fun q hq => hk q (List.mem_cons_of_mem pr hq)),
      dictFind_dictInsert,
      if_neg (fun hc => hk pr (List.mem_cons_self pr rest) hc.symm)]

theorem pairLookup_complete {α : Type u} [LinearOrder α] :
    ∀ (pairs : List (SimPair α)) (acc : List ((α × α) × ℚ)),
      (pairs.map (fun pr => pairKey pr.doc1 pr.doc2)).Nodup →
      ∀ pr ∈ pairs,
        dictFind (pairKey pr.doc1 pr.doc2) (pairs.foldl
          (fun acc pr => dictInsert acc (pairKey pr.doc1 pr.doc2) pr.similarity) acc)
          = some pr.similarity := by
  intro pairs
  induction pairs with
  | nil =>
    intro acc _ pr hpr
    exact absurd hpr (List.not_mem_nil pr)
  | cons q rest ih =>
    intro acc hkeys pr hpr
    simp only [List.map_cons, List.nodup_cons] at hkeys
    obtain ⟨hqnew, hrest⟩ := hkeys
    rw [List.foldl_cons]
    rcases List.mem_cons.mp hpr with rfl | hpr'
    · have hskip : ∀ q' ∈ rest,
          pairKey q'.doc1 q'.doc2 ≠ pairKey pr.doc1 pr.doc2 := by
        intro q' hq' hc
        apply hqnew
        rw [← hc]
        exact List.mem_map_of_mem _ hq'
      rw [dictFind_foldl_skip rest _ _ hskip, dictFind_dictInsert, if_pos rfl]
    · exact ih _ hrest pr hpr'

theorem pairLookup_none {α : Type u} [LinearOrder α]
    (pairs : List (SimPair α)) (k : α × α)
    (hk : ∀ pr ∈ pairs, pairKey pr.doc1 pr.doc2 ≠ k) :
    dictFind k (pairLookupOf pairs) = none := by
  rw [show pairLookupOf pairs = pairs.foldl
    (fun acc pr => dictInsert acc (pairKey pr.doc1 pr.doc2) pr.similarity) [] from rfl,
    dictFind_foldl_skip pairs [] k hk]
  rfl

theorem pairKey_eq_iff {α : Type u} [LinearOrder α] (a b c d : α) :
    pairKey a b = pairKey c d ↔ ((a = c ∧ b = d) ∨ (a = d ∧ b = c)) := by
  unfold pairKey
  by_cases hab : a ≤ b <;> by_cases hcd : c ≤ d
  · rw [if_pos hab, if_pos hcd, Prod.mk.injEq]
    constructor
    · exact Or.inl
    · rintro (⟨h1, h2⟩ | ⟨h1, h2⟩)
      · exact ⟨h1, h2⟩
      · have hba : b ≤ a := by rw [h2, h1]; exact hcd
        have heq : a = b := le_antisymm hab hba
        exact ⟨heq.trans h2, heq.symm.trans h1⟩
  · rw [if_pos hab, if_neg hcd, Prod.mk.injEq]
    constructor
    · rintro ⟨h1, h2⟩
      exact Or.inr ⟨h1, h2⟩
    · rintro (⟨h1, h2⟩ | ⟨h1, h2⟩)
      · exact absurd (show c ≤ d by rw [← h1, ← h2]; exact hab) hcd
      · exact ⟨h1, h2⟩
  · rw [if_neg hab, if_pos hcd, Prod.mk.injEq]
    constructor
    · rintro ⟨h1, h2⟩
      exact Or.inr ⟨h2, h1⟩
    · rintro (⟨h1, h2⟩ | ⟨h1, h2⟩)
      · exact absurd (show a ≤ b by rw [h1, h2]; exact hcd) hab
      · exact ⟨h2, h1⟩
  · rw [if_neg hab, if_neg hcd, Prod.mk.injEq]
    constructor
    · rintro ⟨h1, h2⟩
      exact Or.inl ⟨h2, h1⟩
    · rintro (⟨h1, h2⟩ | ⟨h1, h2⟩)
      · exact ⟨h2, h1⟩
      · have h3 : b < a := lt_of_not_le hab
        have h4 : d < c := lt_of_not_le hcd
        rw [h1] at h3
        rw [← h2] at h4
        exact absurd h4 (lt_asymm h3)

theorem pairKey_comm {α : Type u} [LinearOrder α] (a b : α) :
    pairKey a b = pairKey b a :=
  (pairKey_eq_iff a b b a).2 (Or.inr ⟨rfl, rfl⟩)

theorem mem_memberKeys {α : Type u} [LinearOrder α] :
    ∀ {m : List α} {k : α × α},
      k ∈ memberKeys m ↔ ∃ a b, [a, b].Sublist m ∧ k = pairKey a b := by
  intro m
  induction m with
  | nil =>
    intro k
    simp only [memberKeys, List.not_mem_nil, false_iff]
    rintro ⟨a, b, hab, -⟩
    exact absurd hab.length_le (by simp)
  | cons x rest ih =>
    intro k
    simp only [memberKeys, List.mem_append, List.mem_map, ih]
    constructor
    · rintro (⟨b, hb, rfl⟩ | ⟨a, b, hab, rfl⟩)
      · exact ⟨x, b, pair_sublist_cons.2 (Or.inr ⟨rfl, List.singleton_sublist.2 hb⟩), rfl⟩
      · exact ⟨a, b, pair_sublist_cons.2 (Or.inl hab), rfl⟩
    · rintro ⟨a, b, hab, rfl⟩
      rcases pair_sublist_cons.1 hab with h | ⟨rfl, h⟩
      · exact Or.inr ⟨a, b, h, rfl⟩
      · exact Or.inl ⟨b, List.singleton_sublist.1 h, rfl⟩

theorem sublist_pair_of_mem {α : Type u} {m : List α} {a b : α}
    (ha : a ∈ m) (hb : b ∈ m) (hab : a ≠ b) :
    [a, b].Sublist m ∨ [b, a].Sublist m := by
  induction m with
  | nil => exact absurd ha (List.not_mem_nil a)
  | cons x rest ih =>
    rcases List.mem_cons.mp ha with rfl | ha'
    · have hb' : b ∈ rest := by
        rcases List.mem_cons.mp hb with h | h
        · exact absurd h.symm hab
        · exact h
      exact Or.inl ((List.singleton_sublist.2 hb').cons₂ a)
    · rcases List.mem_cons.mp hb with rfl | hb'
      · exact Or.inr ((List.singleton_sublist.2 ha').cons₂ b)
      · rcases ih ha' hb' with h | h
        · exact Or.inl (h.cons x)
        · exact Or.inr (h.cons x)

theorem mem_memberKeys_of_nodup {α : Type u} [LinearOrder α] {m : List α}
    (hm : m.Nodup) {k : α × α} :
    k ∈ memberKeys m ↔ ∃ a b, a ∈ m ∧ b ∈ m ∧ a ≠ b ∧ k = pairKey a b := by
  rw [mem_memberKeys]
  constructor
  · rintro ⟨a, b, hab, rfl⟩
    have ha : a ∈ m := hab.subset (List.mem_cons_self a [b])
    have hb : b ∈ m := hab.subset (List.mem_cons_of_mem a (List.mem_cons_self b []))
    have hne : a ≠ b := by
      intro h
      subst h
      have : ¬[a, a].Sublist m := by
        intro hc
        have := List.Sublist.nodup hc hm
        simp at this
      exact this hab
    exact ⟨a, b, ha, hb, hne, rfl⟩
  · rintro ⟨a, b, ha, hb, hne, rfl⟩
    rcases sublist_pair_of_mem ha hb hne with h | h
    · exact ⟨a, b, h, rfl⟩
    · exact ⟨b, a, h, pairKey_comm a b⟩

theorem memberKeys_nodup {α : Type u} [LinearOrder α] :
    ∀ {m : List α}, m.Nodup → (memberKeys m).Nodup := by
  intro m
  induction m with
  | nil => intro _; simp [memberKeys]
  | cons x rest ih =>
    intro hm
    obtain ⟨hxrest, hrest⟩ := List.nodup_cons.mp hm
    simp only [memberKeys]
    refine List.Nodup.append ?_ (ih hrest) ?_
    · refine List.Nodup.map_on ?_ hrest
      intro b hb b' hb' heq
      rcases (pairKey_eq_iff x b x b').1 heq with ⟨-, h2⟩ | ⟨h1, h2⟩
      · exact h2
      · exact absurd (show x ∈ rest by rw [h1]; exact hb') hxrest
    · intro k hk1 hk2
      obtain ⟨b, hb, hkey⟩ := List.mem_map.mp hk1
      obtain ⟨a', b', ha', hb', hne', hkey'⟩ := (mem_memberKeys_of_nodup hrest).1 hk2
      rw [← hkey] at hkey'
      rcases (pairKey_eq_iff x b a' b').1 hkey' with ⟨h1, -⟩ | ⟨h1, -⟩
      · exact hxrest (h1 ▸ ha')
      · exact hxrest (h1 ▸ hb')

theorem simsOf_eq_filterMap {α : Type u} [LinearOrder α]
    (lookup : List ((α × α) × ℚ)) :
    ∀ m : List α, simsOf lookup m =
      (memberKeys m).filterMap (fun k => dictFind k lookup) := by
  intro m
  induction m with
  | nil => rfl
  | cons x rest ih =>
    simp only [simsOf, memberKeys, List.filterMap_append, ih, List.filterMap_map]
    rfl

theorem filterMap_filter_isSome {γ δ : Type _} (f : γ → Option δ) :
    ∀ l : List γ, l.filterMap f = (l.filter (fun a => (f a).isSome)).filterMap f := by
  intro l
  induction l with
  | nil => rfl
  | cons x rest ih =>
    cases hfx : f x with
    | none => simp [List.filterMap_cons, List.filter_cons, hfx, ih]
    | some v => simp [List.filterMap_cons, List.filter_cons, hfx, ih]

theorem two_le_length_of_mem_ne {α : Type u} {l : List α} {a b : α}
    (ha : a ∈ l) (hb : b ∈ l) (hab : a ≠ b) : 2 ≤ l.length := by
  match l with
  | [] => exact absurd ha (List.not_mem_nil a)
  | [x] =>
    rw [List.mem_singleton.mp ha, List.mem_singleton.mp hb] at hab
    exact absurd rfl hab
  | x :: y :: rest => simp

theorem exists_ne_of_two_le {α : Type u} {l : List α} (h2 : 2 ≤ l.length)
    (hl : l.Nodup) {d : α} (hd : d ∈ l) : ∃ e ∈ l, e ≠ d := by
  match l, hl with
  | x :: y :: rest, hl =>
    obtain ⟨hx, hy⟩ := List.nodup_cons.mp hl
    by_cases hxd : x = d
    · refine ⟨y, List.mem_cons_of_mem x (List.mem_cons_self y rest), ?_⟩
      intro hc
      exact hx (by rw [hxd, ← hc]; exact List.mem_cons_self y rest)
    · exact ⟨x, List.mem_cons_self x _, hxd⟩

theorem foldlMax_spec : ∀ (xs : List ℚ) (x : ℚ),
    (xs.foldl max x ∈ x :: xs) ∧ (∀ z ∈ x :: xs, z ≤ xs.foldl max x) := by
  intro xs
  induction xs with
  | nil =>
    intro x
    refine ⟨List.mem_singleton.mpr rfl, ?_⟩
    intro z hz
    rw [List.mem_singleton.mp hz]
    exact le_refl x
  | cons y ys ih =>
    intro x
    rw [List.foldl_cons]
    obtain ⟨hmem, hbound⟩ := ih (max x y)
    constructor
    · rcases List.mem_cons.mp hmem with heq | hmem'
      · rw [heq]
        rcases max_choice x y with hc | hc <;> rw [hc]
        · exact List.mem_cons_self x (y :: ys)
        · exact List.mem_cons_of_mem x (List.mem_cons_self y ys)
      · exact List.mem_cons_of_mem x (List.mem_cons_of_mem y hmem')
    · intro z hz
      rcases List.mem_cons.mp hz with rfl | hz'
      · exact le_trans (le_max_left z y) (hbound _ (List.mem_cons_self _ ys))
      · rcases List.mem_cons.mp hz' with rfl | hz''
        · exact le_trans (le_max_right x z) (hbound _ (List.mem_cons_self _ ys))
        · exact hbound z (List.mem_cons_of_mem _ hz'')

theorem pyMax_spec {l : List ℚ} (hl : l ≠ []) :
    pyMax l ∈ l ∧ ∀ z ∈ l, z ≤ pyMax l := by
  match l with
  | x :: xs => exact foldlMax_spec xs x

theorem pyMax_perm {l l' : List ℚ} (hperm : l.Perm l') (hl : l ≠ []) :
    pyMax l = pyMax l' := by
  have hl' : l' ≠ [] := by
    intro hc
    rw [hc] at hperm
    exact hl (List.Perm.eq_nil hperm)
  obtain ⟨hmem, hbound⟩ := pyMax_spec hl
  obtain ⟨hmem', hbound'⟩ := pyMax_spec hl'
  exact le_antisymm (hbound' _ (hperm.mem_iff.1 hmem)) (hbound _ (hperm.mem_iff.2 hmem'))

theorem pyAvg_perm {l l' : List ℚ} (hperm : l.Perm l') : pyAvg l = pyAvg l' := by
  unfold pyAvg
  have hemp : l.isEmpty = l'.isEmpty := by
    cases l with
    | nil =>
      rw [List.Perm.eq_nil hperm.symm]
    | cons x xs =>
      cases l' with
      | nil => exact absurd (List.Perm.eq_nil hperm) (by simp)
      | cons y ys => rfl
  rw [hperm.sum_eq, hperm.length_eq, hemp]

theorem simsOf_perm_of_mem_iff {α : Type u} [LinearOrder α]
    (lookup : List ((α × α) × ℚ)) {m m' : List α}
    (hm : m.Nodup) (hm' : m'.Nodup) (hiff : ∀ x, x ∈ m ↔ x ∈ m') :
    (simsOf lookup m).Perm (simsOf lookup m') := by
  rw [simsOf_eq_filterMap, simsOf_eq_filterMap]
  refine List.Perm.filterMap _ ?_
  rw [List.perm_ext_iff_of_nodup (memberKeys_nodup hm) (memberKeys_nodup hm')]
  intro k
  rw [mem_memberKeys_of_nodup hm, mem_memberKeys_of_nodup hm']
  constructor <;> rintro ⟨a, b, ha, hb, hne, rfl⟩
  · exact ⟨a, b, (hiff a).1 ha, (hiff b).1 hb, hne, rfl⟩
  · exact ⟨a, b, (hiff a).2 ha, (hiff b).2 hb, hne, rfl⟩

theorem simsOf_perm_filter {α : Type u} [LinearOrder α] (pairs : List (SimPair α))
    (m : List α) (hm : m.Nodup)
    (hkeys : (pairs.map (fun pr => pairKey pr.doc1 pr.doc2)).Nodup)
    (hne : ∀ pr ∈ pairs, pr.doc1 ≠ pr.doc2) :
    (simsOf (pairLookupOf pairs) m).Perm
      ((pairs.filter (fun pr => decide (pr.doc1 ∈ m ∧ pr.doc2 ∈ m))).map
        (fun pr => pr.similarity)) := by
  have hB : ∀ l : List (SimPair α), (∀ pr ∈ l, pr ∈ pairs) →
      l.filterMap (fun pr => dictFind (pairKey pr.doc1 pr.doc2) (pairLookupOf pairs)) =
        l.map (fun pr => pr.similarity) := by
    intro l
    induction l with
    | nil => intro _; rfl
    | cons q rest ih =>
      intro hsub
      have hfound : dictFind (pairKey q.doc1 q.doc2) (pairLookupOf pairs) =
          some q.similarity :=
        pairLookup_complete pairs [] hkeys q (hsub q (List.mem_cons_self q rest))
      simp only [List.filterMap_cons, hfound, List.map_cons,
        ih (fun pr hpr => hsub pr (List.mem_cons_of_mem q hpr))]
  have hperm : ((memberKeys m).filter
      (fun k => (dictFind k (pairLookupOf pairs)).isSome)).Perm
      ((pairs.filter (fun pr => decide (pr.doc1 ∈ m ∧ pr.doc2 ∈ m))).map
        (fun pr => pairKey pr.doc1 pr.doc2)) := by
    rw [List.perm_ext_iff_of_nodup ((memberKeys_nodup hm).filter _)
      (hkeys.sublist (List.Sublist.map _ (List.filter_sublist pairs)))]
    intro k
    rw [List.mem_filter, mem_memberKeys_of_nodup hm]
    constructor
    · rintro ⟨⟨a, b, ha, hb, hab, rfl⟩, hsome⟩
      obtain ⟨v, hv⟩ := Option.isSome_iff_exists.mp hsome
      rcases pairLookup_sound pairs [] _ v hv with ⟨pr, hpr, hkey, -⟩ | hbase
      · refine List.mem_map.mpr ⟨pr, ?_, hkey⟩
        rw [List.mem_filter, decide_eq_true_eq]
        refine ⟨hpr, ?_, ?_⟩
        · rcases (pairKey_eq_iff _ _ _ _).1 hkey with ⟨h1, -⟩ | ⟨h1, -⟩
          · rw [h1]; exact ha
          · rw [h1]; exact hb
        · rcases (pairKey_eq_iff _ _ _ _).1 hkey with ⟨-, h2⟩ | ⟨-, h2⟩
          · rw [h2]; exact hb
          · rw [h2]; exact ha
      · rw [show dictFind (pairKey a b) ([] : List ((α × α) × ℚ)) = none from rfl]
          at hbase
        cases hbase
    · intro hk
      obtain ⟨pr, hpr, rfl⟩ := List.mem_map.mp hk
      rw [List.mem_filter, decide_eq_true_eq] at hpr
      obtain ⟨hprmem, hd1, hd2⟩ := hpr
      refine ⟨⟨pr.doc1, pr.doc2, hd1, hd2, hne pr hprmem, rfl⟩, ?_⟩
      rw [show dictFind (pairKey pr.doc1 pr.doc2) (pairLookupOf pairs) =
        some pr.similarity from pairLookup_complete pairs [] hkeys pr hprmem]
      rfl
  have h4 : ((pairs.filter (fun pr => decide (pr.doc1 ∈ m ∧ pr.doc2 ∈ m))).map
        (fun pr => pairKey pr.doc1 pr.doc2)).filterMap
        (fun k => dictFind k (pairLookupOf pairs)) =
      (pairs.filter (fun pr => decide (pr.doc1 ∈ m ∧ pr.doc2 ∈ m))).filterMap
        (fun pr => dictFind (pairKey pr.doc1 pr.doc2) (pairLookupOf pairs)) := by
    rw [List.filterMap_map]
    rfl
  have h5 := hB (pairs.filter (fun pr => decide (pr.doc1 ∈ m ∧ pr.doc2 ∈ m)))
    (fun pr hpr => (List.mem_filter.mp hpr).1)
  rw [simsOf_eq_filterMap, filterMap_filter_isSome _ (memberKeys m), ← h5, ← h4]
  exact hperm.filterMap _

/-- Master characterisation of `group_similar_documents`: it always succeeds;
every reported cluster arises from a raw member list `e2` (a connected
component of the retained-pair graph restricted to documents occurring in
pairs), whose statistics are computed by `simsOf`; and every connected
component with at least two documents is reported. -/
theorem group_spec {α : Type u} [LinearOrder α] (pairs : List (SimPair α)) :
    ∃ cs, group_similar_documents pairs = some cs ∧
      (∀ c ∈ cs, ∃ e2 : List α,
        c.members = e2.insertionSort (· ≤ ·) ∧
        c.size = e2.length ∧ 2 ≤ e2.length ∧ e2.Nodup ∧
        c.avg_similarity = pyAvg (simsOf (pairLookupOf pairs) e2) ∧
        c.max_similarity = pyMax (simsOf (pairLookupOf pairs) e2) ∧
        (∃ d ∈ e2, ∀ x, x ∈ e2 ↔ (x ∈ allDocsOf pairs ∧ Connected pairs x d))) ∧
      (∀ d ∈ allDocsOf pairs, ∀ d' ∈ allDocsOf pairs, d' ≠ d → Connected pairs d' d →
        ∃ c ∈ cs, ∀ x, x ∈ c.members ↔ (x ∈ allDocsOf pairs ∧ Connected pairs x d)) := by
  have hfuel : (allDocsOf pairs).toFinset.card < (allDocsOf pairs).length + 1 := by
    rw [List.toFinset_card_of_nodup (allDocsOf_nodup pairs)]
    omega
  have hdocs : ∀ pr ∈ pairs, pr.doc1 ∈ (allDocsOf pairs).toFinset ∧
      pr.doc2 ∈ (allDocsOf pairs).toFinset := by
    intro pr hpr
    constructor
    · rw [List.mem_toFinset, mem_allDocsOf]
      exact ⟨pr, hpr, Or.inl rfl⟩
    · rw [List.mem_toFinset, mem_allDocsOf]
      exact ⟨pr, hpr, Or.inr rfl⟩
  obtain ⟨p, hu, hInv, hiff⟩ := ufUnionAll_connected hfuel pairs hdocs
  obtain ⟨res, p'', hbuild, hC1, hCroots, hCnodups, hCkeys, hC2⟩ :=
    buildClusters_ok hfuel (allDocsOf pairs) p [] hInv (allDocsOf_nodup pairs)
      List.nodup_nil (fun e he => absurd he (List.not_mem_nil e))
      (fun e he => absurd he (List.not_mem_nil e))
      (fun e he => absurd he (List.not_mem_nil e))
  have hC1' : ∀ e ∈ res, ∀ x, x ∈ e.2 ↔
      (x ∈ allDocsOf pairs ∧ UFRoot p x e.1) := by
    intro e he x
    rw [hC1 e he x]
    constructor
    · rintro (⟨ms, hms, -⟩ | h)
      · exact absurd hms (List.not_mem_nil _)
      · exact h
    · exact Or.inr
  refine ⟨(res.filterMap (clusterStats (pairLookupOf pairs))).insertionSort clusterLE,
    ?_, ?_, ?_⟩
  · simp only [group_similar_documents, hu, hbuild]
  · intro c hc
    rw [List.Perm.mem_iff (List.perm_insertionSort clusterLE _)] at hc
    obtain ⟨e, he, hstats⟩ := List.mem_filterMap.mp hc
    unfold clusterStats at hstats
    split at hstats
    · exact absurd hstats (by simp)
    case isFalse hlen =>
      have heq := (Option.some.injEq _ _).mp hstats
      refine ⟨e.2, ?_, ?_, by omega, hCnodups e he, ?_, ?_, ?_⟩
      · rw [← heq]
      · rw [← heq]
      · rw [← heq]
      · rw [← heq]
      · have hne2 : e.2 ≠ [] := by
          intro hc2
          rw [hc2] at hlen
          simp at hlen
        obtain ⟨d, hd⟩ := List.exists_mem_of_ne_nil e.2 hne2
        refine ⟨d, hd, fun x => ?_⟩
        rw [hC1' e he x]
        have hdroot : UFRoot p d e.1 := hCroots e he d hd
        constructor
        · rintro ⟨hx, hxroot⟩
          refine ⟨hx, (hiff x d).1 ⟨e.1, hxroot, hdroot⟩⟩
        · rintro ⟨hx, hconn⟩
          obtain ⟨r, hxr, hdr⟩ := (hiff x d).2 hconn
          rw [ufRoot_unique hdr hdroot] at hxr
          exact ⟨hx, hxr⟩
  · intro d hd d' hd' hne hconn
    obtain ⟨e, he, hroot⟩ := hC2 d hd
    have hmemiff : ∀ x, x ∈ e.2 ↔ (x ∈ allDocsOf pairs ∧ Connected pairs x d) := by
      intro x
      rw [hC1' e he x]
      constructor
      · rintro ⟨hx, hxroot⟩
        exact ⟨hx, (hiff x d).1 ⟨e.1, hxroot, hroot⟩⟩
      · rintro ⟨hx, hconn'⟩
        obtain ⟨r, hxr, hdr⟩ := (hiff x d).2 hconn'
        rw [ufRoot_unique hdr hroot] at hxr
        exact ⟨hx, hxr⟩
    have hdmem : d ∈ e.2 := (hmemiff d).2 ⟨hd, Relation.EqvGen.refl d⟩
    have hd'mem : d' ∈ e.2 := (hmemiff d').2 ⟨hd', hconn⟩
    have hlen2 : 2 ≤ e.2.length := two_le_length_of_mem_ne hd'mem hdmem hne
    have hstats : clusterStats (pairLookupOf pairs) e =
        some ⟨e.2.insertionSort (· ≤ ·), e.2.length,
          pyAvg (simsOf (pairLookupOf pairs) e.2),
          pyMax (simsOf (pairLookupOf pairs) e.2)⟩ := by
      unfold clusterStats
      rw [if_neg (by omega)]
    refine ⟨⟨e.2.insertionSort (· ≤ ·), e.2.length,
      pyAvg (simsOf (pairLookupOf pairs) e.2),
      pyMax (simsOf (pairLookupOf pairs) e.2)⟩, ?_, ?_⟩
    · rw [List.Perm.mem_iff (List.perm_insertionSort clusterLE _)]
      exact List.mem_filterMap.mpr ⟨e, he, hstats⟩
    · intro x
      rw [show (⟨e.2.insertionSort (· ≤ ·), e.2.length,
        pyAvg (simsOf (pairLookupOf pairs) e.2),
        pyMax (simsOf (pairLookupOf pairs) e.2)⟩ : Cluster α).members =
        e.2.insertionSort (· ≤ ·) from rfl,
        List.Perm.mem_iff (List.perm_insertionSort (· ≤ ·) e.2)]
      exact hmemiff x

theorem pairStep_perm {α : Type u} {pairs₁ pairs₂ : List (SimPair α)}
    (h : pairs₁.Perm pairs₂) (x y : α) :
    pairStep pairs₁ x y ↔ pairStep pairs₂ x y := by
  unfold pairStep
  constructor <;> rintro ⟨pr, hpr, hcase⟩
  · exact ⟨pr, h.mem_iff.1 hpr, hcase⟩
  · exact ⟨pr, h.mem_iff.2 hpr, hcase⟩

theorem Connected_perm {α : Type u} {pairs₁ pairs₂ : List (SimPair α)}
    (h : pairs₁.Perm pairs₂) (x y : α) :
    Connected pairs₁ x y ↔ Connected pairs₂ x y := by
  unfold Connected
  constructor <;> intro hc
  · exact Relation.EqvGen.mono (fun u v huv => (pairStep_perm h u v).1 huv) hc
  · exact Relation.EqvGen.mono (fun u v huv => (pairStep_perm h u v).2 huv) hc

theorem mem_allDocsOf_perm {α : Type u} [DecidableEq α]
    {pairs₁ pairs₂ : List (SimPair α)} (h : pairs₁.Perm pairs₂) (x : α) :
    x ∈ allDocsOf pairs₁ ↔ x ∈ allDocsOf pairs₂ := by
  rw [mem_allDocsOf, mem_allDocsOf]
  constructor <;> rintro ⟨pr, hpr, hcase⟩
  · exact ⟨pr, h.mem_iff.1 hpr, hcase⟩
  · exact ⟨pr, h.mem_iff.2 hpr, hcase⟩

/-- Claim C2: for a fixed retained-pair set, the partition of documents into
cluster member sets is the same for every processing order of the pairs
(clustering is also literally a pure function of its input list, so
re-running it on the same list trivially yields the same output — the
permutation here covers the identity permutation in particular). -/
theorem claim_C2_order_independence {α : Type u} [LinearOrder α]
    (pairs₁ pairs₂ : List (SimPair α)) (hperm : pairs₁.Perm pairs₂)
    (cs₁ cs₂ : List (Cluster α))
    (h₁ : group_similar_documents pairs₁ = some cs₁)
    (h₂ : group_similar_documents pairs₂ = some cs₂) :
    ∀ ms : List α, (∃ c ∈ cs₁, c.members = ms) ↔ (∃ c ∈ cs₂, c.members = ms) := by
  have main : ∀ (q₁ q₂ : List (SimPair α)), q₁.Perm q₂ →
      ∀ (d₁ d₂ : List (Cluster α)), group_similar_documents q₁ = some d₁ →
      group_similar_documents q₂ = some d₂ →
      ∀ ms : List α, (∃ c ∈ d₁, c.members = ms) → (∃ c ∈ d₂, c.members = ms) := by
    intro q₁ q₂ hq d₁ d₂ hg₁ hg₂ ms ⟨c, hc, hcms⟩
    obtain ⟨cs₁', hg₁', hfor₁, hback₁⟩ := group_spec q₁
    obtain ⟨cs₂', hg₂', hfor₂, hback₂⟩ := group_spec q₂
    rw [hg₁'] at hg₁
    rw [hg₂'] at hg₂
    cases (Option.some.injEq _ _).mp hg₁
    cases (Option.some.injEq _ _).mp hg₂
    obtain ⟨e2, hcmem, -, hlen2, hnodup, -, -, d, hd, hmemiff⟩ := hfor₁ c hc
    obtain ⟨hdAll, -⟩ := (hmemiff d).1 hd
    obtain ⟨d', hd', hdne⟩ := exists_ne_of_two_le hlen2 hnodup hd
    obtain ⟨hd'All, hd'conn⟩ := (hmemiff d').1 hd'
    obtain ⟨c₂, hc₂, hmemiff₂⟩ := hback₂ d ((mem_allDocsOf_perm hq d).1 hdAll)
      d' ((mem_allDocsOf_perm hq d').1 hd'All) hdne ((Connected_perm hq d' d).1 hd'conn)
    refine ⟨c₂, hc₂, ?_⟩
    obtain ⟨e2', hc₂mem, -, -, hnodup', -, -, -⟩ := hfor₂ c₂ hc₂
    have hsort₂ : c₂.members.Sorted (· ≤ ·) := by
      rw [hc₂mem]
      exact List.sorted_insertionSort _ _
    have hnodup₂ : c₂.members.Nodup := by
      rw [hc₂mem]
      exact ((List.perm_insertionSort _ e2').nodup_iff).2 hnodup'
    have hsortms : ms.Sorted (· ≤ ·) := by
      rw [← hcms, hcmem]
      exact List.sorted_insertionSort _ _
    have hnodupms : ms.Nodup := by
      rw [← hcms, hcmem]
      exact ((List.perm_insertionSort _ e2).nodup_iff).2 hnodup
    have hmemms : ∀ x, x ∈ ms ↔ (x ∈ allDocsOf q₁ ∧ Connected q₁ x d) := by
      intro x
      rw [← hcms, hcmem, List.Perm.mem_iff (List.perm_insertionSort _ e2)]
      exact hmemiff x
    refine List.eq_of_perm_of_sorted ?_ hsort₂ hsortms
    rw [List.perm_ext_iff_of_nodup hnodup₂ hnodupms]
    intro x
    rw [hmemiff₂ x, hmemms x, mem_allDocsOf_perm hq x, Connected_perm hq x d]
  intro ms
  exact ⟨main pairs₁ pairs₂ hperm cs₁ cs₂ h₁ h₂ ms,
    main pairs₂ pairs₁ hperm.symm cs₂ cs₁ h₂ h₁ ms⟩

section

attribute [local semireducible] Rat.add Rat.mul Rat.sub Rat.inv Rat.ofScientific

/-- Witness for C2 at a concrete input: two retained pairs processed in the two
possible orders yield the same member sets. -/
theorem claim_C2_witness :
    ([(⟨0, 1, "a", "a", 1, "", ""⟩ : SimPair ℕ), ⟨2, 3, "b", "b", 1, "", ""⟩].Perm
      [⟨2, 3, "b", "b", 1, "", ""⟩, ⟨0, 1, "a", "a", 1, "", ""⟩]) ∧
    ((∃ c ∈ [(⟨[0, 1], 2, 1, 1⟩ : Cluster ℕ), ⟨[2, 3], 2, 1, 1⟩], c.members = [0, 1]) ↔
      (∃ c ∈ [(⟨[2, 3], 2, 1, 1⟩ : Cluster ℕ), ⟨[0, 1], 2, 1, 1⟩], c.members = [0, 1])) :=
  ⟨by decide, claim_C2_order_independence
    [⟨0, 1, "a", "a", 1, "", ""⟩, ⟨2, 3, "b", "b", 1, "", ""⟩]
    [⟨2, 3, "b", "b", 1, "", ""⟩, ⟨0, 1, "a", "a", 1, "", ""⟩] (by decide)
    [⟨[0, 1], 2, 1, 1⟩, ⟨[2, 3], 2, 1, 1⟩]
    [⟨[2, 3], 2, 1, 1⟩, ⟨[0, 1], 2, 1, 1⟩] (by decide) (by decide) [0, 1]⟩

end

theorem dictFind_foldl_isSome {α : Type u} [LinearOrder α] :
    ∀ (pairs : List (SimPair α)) (acc : List ((α × α) × ℚ)) (k : α × α),
      ((∃ pr ∈ pairs, pairKey pr.doc1 pr.doc2 = k) ∨ (dictFind k acc).isSome) →
      (dictFind k (pairs.foldl
        (fun acc pr => dictInsert acc (pairKey pr.doc1 pr.doc2) pr.similarity)
        acc)).isSome := by
  intro pairs
  induction pairs with
  | nil =>
    intro acc k h
    rcases h with ⟨pr, hpr, -⟩ | h
    · exact absurd hpr (List.not_mem_nil pr)
    · exact h
  | cons q rest ih =>
    intro acc k h
    rw [List.foldl_cons]
    refine ih _ k ?_
    rcases h with ⟨pr, hpr, hk⟩ | hsome
    · rcases List.mem_cons.mp hpr with rfl | hpr'
      · right
        rw [dictFind_dictInsert, if_pos hk.symm]
        rfl
      · exact Or.inl ⟨pr, hpr', hk⟩
    · right
      rw [dictFind_dictInsert]
      by_cases hqk : k = pairKey q.doc1 q.doc2
      · rw [if_pos hqk]
        rfl
      · rw [if_neg hqk]
        exact hsome

theorem pairLookup_isSome {α : Type u} [LinearOrder α]
    (pairs : List (SimPair α)) (pr : SimPair α) (hpr : pr ∈ pairs) :
    (dictFind (pairKey pr.doc1 pr.doc2) (pairLookupOf pairs)).isSome :=
  dictFind_foldl_isSome pairs [] _ (Or.inl ⟨pr, hpr, rfl⟩)

theorem eqvGen_edge {α : Type u} {r : α → α → Prop} :
    ∀ {x y : α}, Relation.EqvGen r x y →
      x = y ∨ ∃ u v, u ≠ v ∧ r u v ∧ Relation.EqvGen r u y ∧ Relation.EqvGen r v y := by
  intro x y h
  induction h with
  | rel a b hab =>
    by_cases hne : a = b
    · exact Or.inl hne
    · exact Or.inr ⟨a, b, hne, hab, Relation.EqvGen.rel a b hab, Relation.EqvGen.refl b⟩
  | refl a => exact Or.inl rfl
  | symm a b hab ih =>
    rcases ih with heq | ⟨u, v, hne, huv, hu, hv⟩
    · exact Or.inl heq.symm
    · have hba : Relation.EqvGen r b a := Relation.EqvGen.symm a b hab
      exact Or.inr ⟨u, v, hne, huv, Relation.EqvGen.trans _ _ _ hu hba,
        Relation.EqvGen.trans _ _ _ hv hba⟩
  | trans a b c hab hbc ih1 ih2 =>
    rcases ih2 with heq | ⟨u, v, hne, huv, hu, hv⟩
    · rcases ih1 with heq1 | ⟨u, v, hne, huv, hu, hv⟩
      · exact Or.inl (heq1.trans heq)
      · exact Or.inr ⟨u, v, hne, huv, heq ▸ hu, heq ▸ hv⟩
    · exact Or.inr ⟨u, v, hne, huv, hu, hv⟩

theorem component_edge {α : Type u} [LinearOrder α] (pairs : List (SimPair α))
    {e2 : List α} {d : α}
    (hmemiff : ∀ x, x ∈ e2 ↔ (x ∈ allDocsOf pairs ∧ Connected pairs x d))
    {d' : α} (hd' : d' ∈ e2) (hdne : d' ≠ d) :
    ∃ pr ∈ pairs, pr.doc1 ≠ pr.doc2 ∧ pr.doc1 ∈ e2 ∧ pr.doc2 ∈ e2 := by
  obtain ⟨-, hconn⟩ := (hmemiff d').1 hd'
  rcases eqvGen_edge hconn with heq | ⟨u, v, huvne, huv, hu, hv⟩
  · exact absurd heq hdne
  · obtain ⟨pr, hpr, hcase⟩ := huv
    have hu2 : u ∈ e2 := by
      refine (hmemiff u).2 ⟨mem_allDocsOf.2 ⟨pr, hpr, ?_⟩, hu⟩
      rcases hcase with ⟨h1, -⟩ | ⟨-, h2⟩
      · exact Or.inl h1
      · exact Or.inr h2
    have hv2 : v ∈ e2 := by
      refine (hmemiff v).2 ⟨mem_allDocsOf.2 ⟨pr, hpr, ?_⟩, hv⟩
      rcases hcase with ⟨-, h2⟩ | ⟨h1, -⟩
      · exact Or.inr h2
      · exact Or.inl h1
    rcases hcase with ⟨h1, h2⟩ | ⟨h1, h2⟩
    · refine ⟨pr, hpr, ?_, ?_, ?_⟩
      · rw [h1, h2]
        exact huvne
      · rw [h1]
        exact hu2
      · rw [h2]
        exact hv2
    · refine ⟨pr, hpr, ?_, ?_, ?_⟩
      · rw [h1, h2]
        exact fun hc => huvne hc.symm
      · rw [h1]
        exact hv2
      · rw [h2]
        exact hu2

theorem simsOf_ne_nil {α : Type u} [LinearOrder α] (pairs : List (SimPair α))
    {m : List α} (hm : m.Nodup) (pr : SimPair α) (hpr : pr ∈ pairs)
    (hne : pr.doc1 ≠ pr.doc2) (h1 : pr.doc1 ∈ m) (h2 : pr.doc2 ∈ m) :
    simsOf (pairLookupOf pairs) m ≠ [] := by
  rw [simsOf_eq_filterMap]
  intro hc
  rw [List.filterMap_eq_nil_iff] at hc
  have hk : pairKey pr.doc1 pr.doc2 ∈ memberKeys m :=
    (mem_memberKeys_of_nodup hm).2 ⟨pr.doc1, pr.doc2, h1, h2, hne, rfl⟩
  have hsome := pairLookup_isSome pairs pr hpr
  rw [hc _ hk] at hsome
  exact absurd hsome (by simp)

theorem pyAvg_ne_nil : ∀ {l : List ℚ}, l ≠ [] → pyAvg l = l.sum / l.length
  | [], h => absurd rfl h
  | _ :: _, _ => rfl

/-- Claim C9: every emitted cluster has size ≥ 2 and contains at least one
retained pair with both (distinct) endpoints among its members; hence the
similarity list used for its statistics is non-empty, `avg_similarity` is the
genuine quotient `sum / len` (not the `else 0` fallback) and `max_similarity`
is the genuine maximum of that non-empty list (not the `else 0` fallback). -/
theorem claim_C9_nonempty_sims {α : Type u} [LinearOrder α]
    (pairs : List (SimPair α)) (cs : List (Cluster α))
    (hg : group_similar_documents pairs = some cs) :
    ∀ c ∈ cs, 2 ≤ c.size ∧
      (∃ pr ∈ pairs, pr.doc1 ≠ pr.doc2 ∧ pr.doc1 ∈ c.members ∧ pr.doc2 ∈ c.members) ∧
      simsOf (pairLookupOf pairs) c.members ≠ [] ∧
      c.avg_similarity = (simsOf (pairLookupOf pairs) c.members).sum /
        ((simsOf (pairLookupOf pairs) c.members).length : ℚ) ∧
      c.max_similarity ∈ simsOf (pairLookupOf pairs) c.members ∧
      ∀ z ∈ simsOf (pairLookupOf pairs) c.members, z ≤ c.max_similarity := by
  obtain ⟨cs', hg', hfor, -⟩ := group_spec pairs
  rw [hg'] at hg
  cases (Option.some.injEq _ _).mp hg
  intro c hc
  obtain ⟨e2, hcm, hsz, hlen2, hnodup, havg, hmax, d, hd, hmemiff⟩ := hfor c hc
  obtain ⟨d', hd', hdne⟩ := exists_ne_of_two_le hlen2 hnodup hd
  obtain ⟨pr, hpr, hprne, h1, h2⟩ := component_edge pairs hmemiff hd' hdne
  have hmemnodup : c.members.Nodup := by
    rw [hcm]
    exact ((List.perm_insertionSort _ e2).nodup_iff).2 hnodup
  have hmemsame : ∀ x, x ∈ c.members ↔ x ∈ e2 := fun x => by
    rw [hcm]
    exact (List.perm_insertionSort _ e2).mem_iff
  have hperm : (simsOf (pairLookupOf pairs) e2).Perm
      (simsOf (pairLookupOf pairs) c.members) :=
    simsOf_perm_of_mem_iff _ hnodup hmemnodup (fun x => (hmemsame x).symm)
  have hne_nil : simsOf (pairLookupOf pairs) c.members ≠ [] :=
    simsOf_ne_nil pairs hmemnodup pr hpr hprne ((hmemsame _).2 h1) ((hmemsame _).2 h2)
  have havg' : c.avg_similarity = pyAvg (simsOf (pairLookupOf pairs) c.members) := by
    rw [havg]
    exact pyAvg_perm hperm
  have hmax' : c.max_similarity = pyMax (simsOf (pairLookupOf pairs) c.members) := by
    rw [hmax]
    refine pyMax_perm hperm ?_
    intro hc'
    exact hne_nil (List.Perm.eq_nil (hc' ▸ hperm).symm)
  refine ⟨hsz ▸ hlen2, ⟨pr, hpr, hprne, (hmemsame _).2 h1, (hmemsame _).2 h2⟩,
    hne_nil, ?_, ?_, ?_⟩
  · rw [havg', pyAvg_ne_nil hne_nil]
  · rw [hmax']
    exact (pyMax_spec hne_nil).1
  · rw [hmax']
    exact (pyMax_spec hne_nil).2

section

attribute [local semireducible] Rat.add Rat.mul Rat.sub Rat.inv Rat.ofScientific

/-- Witness for C9 at a concrete input: one retained pair, one cluster. -/
theorem claim_C9_witness :
    2 ≤ (⟨[0, 1], 2, 1, 1⟩ : Cluster ℕ).size ∧
      (∃ pr ∈ [(⟨0, 1, "a", "a", 1, "", ""⟩ : SimPair ℕ)], pr.doc1 ≠ pr.doc2 ∧
        pr.doc1 ∈ (⟨[0, 1], 2, 1, 1⟩ : Cluster ℕ).members ∧
        pr.doc2 ∈ (⟨[0, 1], 2, 1, 1⟩ : Cluster ℕ).members) ∧
      simsOf (pairLookupOf [(⟨0, 1, "a", "a", 1, "", ""⟩ : SimPair ℕ)])
        (⟨[0, 1], 2, 1, 1⟩ : Cluster ℕ).members ≠ [] ∧
      (⟨[0, 1], 2, 1, 1⟩ : Cluster ℕ).avg_similarity =
        (simsOf (pairLookupOf [(⟨0, 1, "a", "a", 1, "", ""⟩ : SimPair ℕ)])
          (⟨[0, 1], 2, 1, 1⟩ : Cluster ℕ).members).sum /
        ((simsOf (pairLookupOf [(⟨0, 1, "a", "a", 1, "", ""⟩ : SimPair ℕ)])
          (⟨[0, 1], 2, 1, 1⟩ : Cluster ℕ).members).length : ℚ) ∧
      (⟨[0, 1], 2, 1, 1⟩ : Cluster ℕ).max_similarity ∈
        simsOf (pairLookupOf [(⟨0, 1, "a", "a", 1, "", ""⟩ : SimPair ℕ)])
          (⟨[0, 1], 2, 1, 1⟩ : Cluster ℕ).members ∧
      ∀ z ∈ simsOf (pairLookupOf [(⟨0, 1, "a", "a", 1, "", ""⟩ : SimPair ℕ)])
          (⟨[0, 1], 2, 1, 1⟩ : Cluster ℕ).members,
        z ≤ (⟨[0, 1], 2, 1, 1⟩ : Cluster ℕ).max_similarity :=
  claim_C9_nonempty_sims [⟨0, 1, "a", "a", 1, "", ""⟩] [⟨[0, 1], 2, 1, 1⟩]
    (by decide) ⟨[0, 1], 2, 1, 1⟩ (by decide)

end

/-- Claim C1: for every reported cluster, `avg_similarity` is the arithmetic
mean, and `max_similarity` the maximum, of exactly those retained-pair scores
whose both endpoints are members of that cluster; member pairs absent from the
retained-pair set contribute nothing (they are excluded, not counted as zero).
The hypotheses say the retained pairs name each unordered document pair at
most once and never pair a document with itself, which is what
`find_similar_pairs` produces. -/
theorem claim_C1_cluster_stats {α : Type u} [LinearOrder α]
    (pairs : List (SimPair α))
    (hkeys : (pairs.map (fun pr => pairKey pr.doc1 pr.doc2)).Nodup)
    (hne : ∀ pr ∈ pairs, pr.doc1 ≠ pr.doc2)
    (cs : List (Cluster α)) (hg : group_similar_documents pairs = some cs) :
    ∀ c ∈ cs,
      ((pairs.filter (fun pr => decide (pr.doc1 ∈ c.members ∧ pr.doc2 ∈ c.members))).map
        (fun pr => pr.similarity)) ≠ [] ∧
      c.avg_similarity =
        ((pairs.filter (fun pr => decide (pr.doc1 ∈ c.members ∧ pr.doc2 ∈ c.members))).map
          (fun pr => pr.similarity)).sum /
        (((pairs.filter (fun pr => decide (pr.doc1 ∈ c.members ∧ pr.doc2 ∈ c.members))).map
          (fun pr => pr.similarity)).length : ℚ) ∧
      c.max_similarity ∈
        ((pairs.filter (fun pr => decide (pr.doc1 ∈ c.members ∧ pr.doc2 ∈ c.members))).map
          (fun pr => pr.similarity)) ∧
      ∀ z ∈ ((pairs.filter (fun pr => decide (pr.doc1 ∈ c.members ∧ pr.doc2 ∈ c.members))).map
          (fun pr => pr.similarity)), z ≤ c.max_similarity := by
  obtain ⟨cs', hg', hfor, -⟩ := group_spec pairs
  rw [hg'] at hg
  cases (Option.some.injEq _ _).mp hg
  intro c hc
  obtain ⟨e2, hcm, hsz, hlen2, hnodup, havg, hmax, d, hd, hmemiff⟩ := hfor c hc
  obtain ⟨d', hd', hdne⟩ := exists_ne_of_two_le hlen2 hnodup hd
  obtain ⟨pr, hpr, hprne, h1, h2⟩ := component_edge pairs hmemiff hd' hdne
  have hmemnodup : c.members.Nodup := by
    rw [hcm]
    exact ((List.perm_insertionSort _ e2).nodup_iff).2 hnodup
  have hmemsame : ∀ x, x ∈ c.members ↔ x ∈ e2 := fun x => by
    rw [hcm]
    exact (List.perm_insertionSort _ e2).mem_iff
  have hperm1 : (simsOf (pairLookupOf pairs) e2).Perm
      (simsOf (pairLookupOf pairs) c.members) :=
    simsOf_perm_of_mem_iff _ hnodup hmemnodup (fun x => (hmemsame x).symm)
  have hperm2 := simsOf_perm_filter pairs c.members hmemnodup hkeys hne
  have hperm := hperm1.trans hperm2
  have hprfil : pr ∈ pairs.filter
      (fun pr => decide (pr.doc1 ∈ c.members ∧ pr.doc2 ∈ c.members)) := by
    rw [List.mem_filter]
    exact ⟨hpr, by
      rw [decide_eq_true_eq]
      exact ⟨(hmemsame _).2 h1, (hmemsame _).2 h2⟩⟩
  have hne_nil : ((pairs.filter
      (fun pr => decide (pr.doc1 ∈ c.members ∧ pr.doc2 ∈ c.members))).map
      (fun pr => pr.similarity)) ≠ [] :=
    List.ne_nil_of_mem (List.mem_map_of_mem (fun pr => pr.similarity) hprfil)
  have hsrc_ne : simsOf (pairLookupOf pairs) e2 ≠ [] := by
    intro hc'
    exact hne_nil (List.Perm.eq_nil (hc' ▸ hperm).symm)
  refine ⟨hne_nil, ?_, ?_, ?_⟩
  · rw [havg, pyAvg_perm hperm, pyAvg_ne_nil hne_nil]
  · rw [hmax, pyMax_perm hperm hsrc_ne]
    exact (pyMax_spec hne_nil).1
  · rw [hmax, pyMax_perm hperm hsrc_ne]
    exact (pyMax_spec hne_nil).2

section

attribute [local semireducible] Rat.add Rat.mul Rat.sub Rat.inv Rat.ofScientific

/-- Witness for C1 at the spec's own example: a cluster whose only internal
retained pair has similarity 0.9 gets avg_similarity = max_similarity = 0.9. -/
theorem claim_C1_witness :
    ((([(⟨10, 20, "a", "a", 9/10, "", ""⟩ : SimPair ℕ)].filter
        (fun pr => decide (pr.doc1 ∈ (⟨[10, 20], 2, 9/10, 9/10⟩ : Cluster ℕ).members ∧
          pr.doc2 ∈ (⟨[10, 20], 2, 9/10, 9/10⟩ : Cluster ℕ).members))).map
        (fun pr => pr.similarity)) ≠ [] ∧
      (⟨[10, 20], 2, 9/10, 9/10⟩ : Cluster ℕ).avg_similarity =
        (([(⟨10, 20, "a", "a", 9/10, "", ""⟩ : SimPair ℕ)].filter
          (fun pr => decide (pr.doc1 ∈ (⟨[10, 20], 2, 9/10, 9/10⟩ : Cluster ℕ).members ∧
            pr.doc2 ∈ (⟨[10, 20], 2, 9/10, 9/10⟩ : Cluster ℕ).members))).map
          (fun pr => pr.similarity)).sum /
        ((([(⟨10, 20, "a", "a", 9/10, "", ""⟩ : SimPair ℕ)].filter
          (fun pr => decide (pr.doc1 ∈ (⟨[10, 20], 2, 9/10, 9/10⟩ : Cluster ℕ).members ∧
            pr.doc2 ∈ (⟨[10, 20], 2, 9/10, 9/10⟩ : Cluster ℕ).members))).map
          (fun pr => pr.similarity)).length : ℚ) ∧
      (⟨[10, 20], 2, 9/10, 9/10⟩ : Cluster ℕ).max_similarity ∈
        (([(⟨10, 20, "a", "a", 9/10, "", ""⟩ : SimPair ℕ)].filter
          (fun pr => decide (pr.doc1 ∈ (⟨[10, 20], 2, 9/10, 9/10⟩ : Cluster ℕ).members ∧
            pr.doc2 ∈ (⟨[10, 20], 2, 9/10, 9/10⟩ : Cluster ℕ).members))).map
          (fun pr => pr.similarity)) ∧
      ∀ z ∈ (([(⟨10, 20, "a", "a", 9/10, "", ""⟩ : SimPair ℕ)].filter
          (fun pr => decide (pr.doc1 ∈ (⟨[10, 20], 2, 9/10, 9/10⟩ : Cluster ℕ).members ∧
            pr.doc2 ∈ (⟨[10, 20], 2, 9/10, 9/10⟩ : Cluster ℕ).members))).map
          (fun pr => pr.similarity)),
        z ≤ (⟨[10, 20], 2, 9/10, 9/10⟩ : Cluster ℕ).max_similarity) :=
  claim_C1_cluster_stats [⟨10, 20, "a", "a", 9/10, "", ""⟩] (by decide) (by decide)
    [⟨[10, 20], 2, 9/10, 9/10⟩] (by decide) ⟨[10, 20], 2, 9/10, 9/10⟩ (by decide)

end

/-! ### The interactive driver `main` (lines 159–375)

We embed the part of `main` that runs after the environment checks (folder
and metadata existence are filesystem concerns outside the embedding): the
document-count guard, the mode selection from the user's menu `choice` (with
the comma-separated type list already parsed into `typeInput`), the scan at
threshold 0.6, the descending stable sort of the retained pairs, the
conditional clustering, and the JSON report assembled at lines 316–367.
`round(·, 4)` on the serialized copies of the scores and the free-form
metadata dicts are omitted: the tier annotations under study are computed in
the code from the unrounded scores. -/

/-- One entry of `results["pairs"]`. -/
structure PairEntry (α : Type u) where
  doc1 : α
  doc2 : α
  type1 : String
  type2 : String
  similarity : ℚ
  level : String
  cross_format : Bool
deriving DecidableEq

/-- One entry of `results["clusters"]` (members paired with their types). -/
structure ClusterEntry (α : Type u) where
  cluster_id : ℕ
  size : ℕ
  avg_similarity : ℚ
  max_similarity : ℚ
  level : String
  members : List (α × String)
deriving DecidableEq

/-- `results["settings"]`. -/
structure Settings where
  threshold : ℚ
  mode : String
  selected_types : Option (List String)
  total_documents : ℕ
deriving DecidableEq

/-- The whole exported `results` object. -/
structure Report (α : Type u) where
  settings : Settings
  pairs : List (PairEntry α)
  clusters : List (ClusterEntry α)
deriving DecidableEq

/-- The pair-level annotation of lines 341–344. -/
def pairLevel (s : ℚ) : String :=
  if 0.95 ≤ s then "very_high"
  else if 0.85 ≤ s then "high"
  else if 0.7 ≤ s then "medium"
  else "low"

/-- The cluster-level annotation of lines 359–361 (note: no `very_high`
branch). -/
def clusterLevel (a : ℚ) : String :=
  if 0.85 ≤ a then "high"
  else if 0.7 ≤ a then "medium"
  else "low"

/-- `threshold = 0.6` (line 246). -/
def mainThreshold : ℚ := 0.6

/-- The descending similarity order used by `similar_pairs.sort(key=...,
reverse=True)`; `insertionSort` with this relation is the stable descending
sort Python performs. -/
def pairDesc {α : Type u} (p q : SimPair α) : Prop :=
  q.similarity ≤ p.similarity

instance pairDesc.decRel {α : Type u} : DecidableRel (@pairDesc α) :=
  fun p q => inferInstanceAs (Decidable (q.similarity ≤ p.similarity))

/-- The post-check body of `main`: `none` models the early `return` at
line 190 (fewer than two documents); otherwise the report written to
`results/results.json`. -/
def mainRun {α : Type u} [LinearOrder α] (sim : α → α → ℚ) (docType docText : α → String)
    (docs : List α) (choice : String) (typeInput : List String) :
    Option (Report α) :=
  if docs.length < 2 then none
  else
    let mode := if choice = "2" then "same_type"
      else if choice = "3" then "select" else "all"
    let selected_types : Option (List String) :=
      if choice = "3" then some typeInput else none
    let pairs0 := find_similar_pairs sim docType docText mainThreshold mode
      selected_types docs
    let pairs1 := pairs0.insertionSort pairDesc
    let clustersOpt : Option (List (Cluster α)) :=
      if pairs1.isEmpty then some [] else group_similar_documents pairs1
    clustersOpt.map (fun clusters =>
      ⟨⟨mainThreshold, mode, selected_types, docs.length⟩,
        pairs1.map (fun p => ⟨p.doc1, p.doc2, p.type1, p.type2, p.similarity,
          pairLevel p.similarity, decide (p.type1 ≠ p.type2)⟩),
        (clusters.enumFrom 1).map (fun e =>
          ⟨e.1, e.2.size, e.2.avg_similarity, e.2.max_similarity,
            clusterLevel e.2.avg_similarity,
            e.2.members.map (fun m => (m, docType m))⟩)⟩)

theorem pairLevel_iff (s : ℚ) :
    (pairLevel s = "very_high" ↔ 0.95 ≤ s) ∧
    (pairLevel s = "high" ↔ (0.85 ≤ s ∧ s < 0.95)) ∧
    (pairLevel s = "medium" ↔ (0.7 ≤ s ∧ s < 0.85)) ∧
    (pairLevel s = "low" ↔ s < 0.7) := by
  unfold pairLevel
  by_cases h1 : (0.95 : ℚ) ≤ s
  · rw [if_pos h1]
    refine ⟨⟨fun _ => h1, fun _ => rfl⟩,
      ⟨fun hx => absurd hx (by decide), fun hx => absurd hx.2 (not_lt.2 h1)⟩,
      ⟨fun hx => absurd hx (by decide),
        fun hx => absurd (lt_of_lt_of_le hx.2 (by norm_num)) (not_lt.2 h1)⟩,
      ⟨fun hx => absurd hx (by decide),
        fun hx => absurd (lt_of_lt_of_le hx (by norm_num)) (not_lt.2 h1)⟩⟩
  · rw [if_neg h1]
    by_cases h2 : (0.85 : ℚ) ≤ s
    · rw [if_pos h2]
      refine ⟨⟨fun hx => absurd hx (by decide), fun hx => absurd hx h1⟩,
        ⟨fun _ => ⟨h2, not_le.1 h1⟩, fun _ => rfl⟩,
        ⟨fun hx => absurd hx (by decide), fun hx => absurd hx.2 (not_lt.2 h2)⟩,
        ⟨fun hx => absurd hx (by decide),
          fun hx => absurd (lt_of_lt_of_le hx (by norm_num)) (not_lt.2 h2)⟩⟩
    · rw [if_neg h2]
      by_cases h3 : (0.7 : ℚ) ≤ s
      · rw [if_pos h3]
        refine ⟨⟨fun hx => absurd hx (by decide), fun hx => absurd hx h1⟩,
          ⟨fun hx => absurd hx (by decide), fun hx => absurd hx.1 h2⟩,
          ⟨fun _ => ⟨h3, not_le.1 h2⟩, fun _ => rfl⟩,
          ⟨fun hx => absurd hx (by decide), fun hx => absurd hx (not_lt.2 h3)⟩⟩
      · rw [if_neg h3]
        refine ⟨⟨fun hx => absurd hx (by decide),
            fun hx => absurd (le_trans (by norm_num) hx) h3⟩,
          ⟨fun hx => absurd hx (by decide),
            fun hx => absurd (le_trans (by norm_num) hx.1) h3⟩,
          ⟨fun hx => absurd hx (by decide), fun hx => absurd hx.1 h3⟩,
          ⟨fun _ => not_le.1 h3, fun _ => rfl⟩⟩

theorem clusterLevel_iff (a : ℚ) :
    clusterLevel a ≠ "very_high" ∧
    (clusterLevel a = "high" ↔ 0.85 ≤ a) ∧
    (clusterLevel a = "medium" ↔ (0.7 ≤ a ∧ a < 0.85)) ∧
    (clusterLevel a = "low" ↔ a < 0.7) := by
  unfold clusterLevel
  by_cases h2 : (0.85 : ℚ) ≤ a
  · rw [if_pos h2]
    refine ⟨by decide, ⟨fun _ => h2, fun _ => rfl⟩,
      ⟨fun hx => absurd hx (by decide), fun hx => absurd hx.2 (not_lt.2 h2)⟩,
      ⟨fun hx => absurd hx (by decide),
        fun hx => absurd (lt_of_lt_of_le hx (by norm_num)) (not_lt.2 h2)⟩⟩
  · rw [if_neg h2]
    by_cases h3 : (0.7 : ℚ) ≤ a
    · rw [if_pos h3]
      refine ⟨by decide, ⟨fun hx => absurd hx (by decide), fun hx => absurd hx h2⟩,
        ⟨fun _ => ⟨h3, not_le.1 h2⟩, fun _ => rfl⟩,
        ⟨fun hx => absurd hx (by decide), fun hx => absurd hx (not_lt.2 h3)⟩⟩
    · rw [if_neg h3]
      refine ⟨by decide, ⟨fun hx => absurd hx (by decide),
          fun hx => absurd (le_trans (by norm_num) hx) h3⟩,
        ⟨fun hx => absurd hx (by decide), fun hx => absurd hx.1 h3⟩,
        ⟨fun _ => not_le.1 h3, fun _ => rfl⟩⟩

theorem mainRun_levels {α : Type u} [LinearOrder α] (sim : α → α → ℚ)
    (docType docText : α → String) (docs : List α) (choice : String)
    (typeInput : List String) (r : Report α)
    (hr : mainRun sim docType docText docs choice typeInput = some r) :
    (∀ e ∈ r.pairs, e.level = pairLevel e.similarity) ∧
    (∀ e ∈ r.clusters, e.level = clusterLevel e.avg_similarity) := by
  unfold mainRun at hr
  by_cases hlen : docs.length < 2
  · rw [if_pos hlen] at hr
    exact absurd hr (by simp)
  · rw [if_neg hlen] at hr
    dsimp only at hr
    generalize (if choice = "2" then "same_type"
      else if choice = "3" then "select" else "all") = mode at hr
    generalize (if choice = "3" then some typeInput else none :
      Option (List String)) = sel at hr
    generalize hps : ((find_similar_pairs sim docType docText mainThreshold mode sel
      docs).insertionSort pairDesc) = ps at hr
    generalize hopt : (if ps.isEmpty then some [] else
      group_similar_documents ps) = copt at hr
    cases copt with
    | none => exact absurd hr (by simp)
    | some clusters =>
      rw [Option.map_some'] at hr
      cases (Option.some.injEq _ _).mp hr
      constructor
      · intro e he
        rw [List.mem_map] at he
        obtain ⟨p, hp, rfl⟩ := he
        rfl
      · intro e he
        rw [List.mem_map] at he
        obtain ⟨q, hq, rfl⟩ := he
        rfl

/-- Claim C5 (amended): in the serialized report, every pair entry's tier is
"very_high" iff its similarity ≥ 0.95, "high" iff it is in [0.85, 0.95),
"medium" iff in [0.7, 0.85) and "low" iff below 0.7; but the cluster tiers
use only the 0.85 and 0.7 breakpoints applied to the average similarity, and
a cluster is NEVER annotated "very_high" — the tier scales are not the same,
contrary to the spec's sentence. -/
theorem claim_C5_level_annotation {α : Type u} [LinearOrder α] (sim : α → α → ℚ)
    (docType docText : α → String) (docs : List α) (choice : String)
    (typeInput : List String) (r : Report α)
    (hr : mainRun sim docType docText docs choice typeInput = some r) :
    (∀ e ∈ r.pairs,
      (e.level = "very_high" ↔ 0.95 ≤ e.similarity) ∧
      (e.level = "high" ↔ (0.85 ≤ e.similarity ∧ e.similarity < 0.95)) ∧
      (e.level = "medium" ↔ (0.7 ≤ e.similarity ∧ e.similarity < 0.85)) ∧
      (e.level = "low" ↔ e.similarity < 0.7)) ∧
    (∀ e ∈ r.clusters, e.level ≠ "very_high" ∧
      (e.level = "high" ↔ 0.85 ≤ e.avg_similarity) ∧
      (e.level = "medium" ↔ (0.7 ≤ e.avg_similarity ∧ e.avg_similarity < 0.85)) ∧
      (e.level = "low" ↔ e.avg_similarity < 0.7)) := by
  obtain ⟨hp, hc⟩ := mainRun_levels sim docType docText docs choice typeInput r hr
  constructor
  · intro e he
    rw [hp e he]
    exact pairLevel_iff e.similarity
  · intro e he
    rw [hc e he]
    exact clusterLevel_iff e.avg_similarity

section

attribute [local semireducible] Rat.add Rat.mul Rat.sub Rat.inv Rat.ofScientific

/-- Counterexample for C5's claim that clusters use the same tier breakpoints
as pairs "including very_high at ≥ 0.95": two identical documents with
similarity 0.96 yield a pair annotated "very_high" but a cluster whose
average 0.96 ≥ 0.95 is annotated only "high". -/
theorem claim_C5_counterexample :
    mainRun (fun _ _ => (96/100 : ℚ)) (fun _ => "docx") (fun _ => "")
        ([0, 1] : List ℕ) "1" [] =
      some ⟨⟨3/5, "all", none, 2⟩,
        [⟨0, 1, "docx", "docx", 24/25, "very_high", false⟩],
        [⟨1, 2, 24/25, 24/25, "high", [(0, "docx"), (1, "docx")]⟩]⟩ ∧
    (0.95 : ℚ) ≤ 24/25 ∧ ("high" : String) ≠ "very_high" := by decide

/-- Witness for the amended C5 theorem at a concrete run. -/
theorem claim_C5_witness :
    (∀ e ∈ (⟨⟨3/5, "all", none, 2⟩,
        [⟨0, 1, "docx", "docx", 24/25, "very_high", false⟩],
        [⟨1, 2, 24/25, 24/25, "high", [(0, "docx"), (1, "docx")]⟩]⟩ : Report ℕ).pairs,
      (e.level = "very_high" ↔ 0.95 ≤ e.similarity) ∧
      (e.level = "high" ↔ (0.85 ≤ e.similarity ∧ e.similarity < 0.95)) ∧
      (e.level = "medium" ↔ (0.7 ≤ e.similarity ∧ e.similarity < 0.85)) ∧
      (e.level = "low" ↔ e.similarity < 0.7)) ∧
    (∀ e ∈ (⟨⟨3/5, "all", none, 2⟩,
        [⟨0, 1, "docx", "docx", 24/25, "very_high", false⟩],
        [⟨1, 2, 24/25, 24/25, "high", [(0, "docx"), (1, "docx")]⟩]⟩ : Report ℕ).clusters,
      e.level ≠ "very_high" ∧
      (e.level = "high" ↔ 0.85 ≤ e.avg_similarity) ∧
      (e.level = "medium" ↔ (0.7 ≤ e.avg_similarity ∧ e.avg_similarity < 0.85)) ∧
      (e.level = "low" ↔ e.avg_similarity < 0.7)) :=
  claim_C5_level_annotation (fun _ _ => (96/100 : ℚ)) (fun _ => "docx")
    (fun _ => "") ([0, 1] : List ℕ) "1" []
    ⟨⟨3/5, "all", none, 2⟩,
      [⟨0, 1, "docx", "docx", 24/25, "very_high", false⟩],
      [⟨1, 2, 24/25, 24/25, "high", [(0, "docx"), (1, "docx")]⟩]⟩ (by decide)

end

/-- Claim C7 (amended): the run is refused (no report) exactly when fewer than
two documents are loaded; with at least two documents a report is always
produced — in particular a `select`-mode type list naming a type with no
member documents does NOT cause a refusal (see the counterexample). -/
theorem claim_C7_refusal {α : Type u} [LinearOrder α] (sim : α → α → ℚ)
    (docType docText : α → String) (docs : List α) (choice : String)
    (typeInput : List String) :
    (docs.length < 2 → mainRun sim docType docText docs choice typeInput = none) ∧
    (2 ≤ docs.length → (mainRun sim docType docText docs choice typeInput).isSome) := by
  constructor
  · intro h
    unfold mainRun
    rw [if_pos h]
  · intro h
    unfold mainRun
    rw [if_neg (by omega)]
    simp only [Option.isSome_map]
    generalize (if choice = "2" then "same_type"
      else if choice = "3" then "select" else "all") = mode
    generalize (if choice = "3" then some typeInput else none :
      Option (List String)) = sel
    obtain ⟨cs, hcs, -, -⟩ := group_spec ((find_similar_pairs sim docType docText
      mainThreshold mode sel docs).insertionSort pairDesc)
    rw [hcs]
    by_cases hemp : ((find_similar_pairs sim docType docText mainThreshold mode sel
        docs).insertionSort pairDesc).isEmpty
    · rw [if_pos hemp]
      rfl
    · rw [if_neg hemp]
      rfl

section

attribute [local semireducible] Rat.add Rat.mul Rat.sub Rat.inv Rat.ofScientific

/-- Counterexample for C7's claim that a selected type with no member
documents refuses the run: two docx documents with `select` mode and the
selection ["pptx"] (no pptx documents exist) still produce a report — an
empty one, not a refusal. -/
theorem claim_C7_counterexample :
    mainRun (fun _ _ => (96/100 : ℚ)) (fun _ => "docx") (fun _ => "")
        ([0, 1] : List ℕ) "3" ["pptx"] =
      some ⟨⟨3/5, "select", some ["pptx"], 2⟩, [], []⟩ := by decide

end

/-- Witness for the amended C7 theorem: one document is refused, two yield a
report. -/
theorem claim_C7_witness :
    mainRun (fun _ _ => (96/100 : ℚ)) (fun _ => "docx") (fun _ => "")
        ([0] : List ℕ) "1" [] = none ∧
    (mainRun (fun _ _ => (96/100 : ℚ)) (fun _ => "docx") (fun _ => "")
        ([0, 1] : List ℕ) "1" []).isSome :=
  ⟨(claim_C7_refusal (fun _ _ => (96/100 : ℚ)) (fun _ => "docx") (fun _ => "")
      ([0] : List ℕ) "1" []).1 (by decide),
    (claim_C7_refusal (fun _ _ => (96/100 : ℚ)) (fun _ => "docx") (fun _ => "")
      ([0, 1] : List ℕ) "1" []).2 (by decide)⟩
